import Mathlib

/-!
Verification development for the MCP research-assistant core:
the PDF ingestion pipeline (`src/mcp_server/ingest/pdf_ingest.py`),
the vector-store query normalization (`src/mcp_server/vectorstore.py`)
and the citation builder (`src/mcp_server/citations.py`).

Text is modelled as `List Char`; machine strings appear as `String` at
the interfaces.  Python exceptions are modelled with `Option`/`Except`.
-/

/-- ASCII model of Python's regex class `\s` (space, tab, newline,
carriage return, vertical tab, form feed). -/
def isSpace (c : Char) : Bool :=
  c = ' ' || c = '\t' || c = '\n' || c = '\r' || c = '\x0b' || c = '\x0c'

/-- One step (right to left) of the tokenizer
`re.findall(r"\S+\s*", text)`: the accumulator holds the token being
built (in order) and the finished tokens to its right.  A whitespace
character that is immediately followed by a non-whitespace character
closes the token being built; every token is a non-whitespace run
followed by its trailing whitespace. -/
def tokStep (c : Char) (st : List Char × List (List Char)) :
    List Char × List (List Char) :=
  match st with
  | (cur, toks) =>
    if isSpace c then
      match cur with
      | t :: rest => if isSpace t then (c :: t :: rest, toks) else ([c], (t :: rest) :: toks)
      | [] => ([c], toks)
    else (c :: cur, toks)

/-- `re.findall(r"\S+\s*", text)`: split `text` into tokens, each a
maximal non-whitespace run together with its trailing whitespace;
leading whitespace of the text belongs to no token and is dropped. -/
def tokenize (l : List Char) : List (List Char) :=
  match l.foldr tokStep ([], []) with
  | (cur, toks) =>
    match cur.dropWhile isSpace with
    | [] => toks
    | t => t :: toks

/-- The `while i < len(tokens)` loop of `_chunk_text`, as a
fuel-indexed recursion: at index `i` emit `tokens[i:i+chunk_size]` and
advance `i` by `chunk_size - overlap`.  The fuel is only a bound on
the number of iterations; `chunkAux_join_drop` below shows that
`tokens.length` fuel is exact whenever `overlap < chunk_size`
(for `overlap >= chunk_size` the source loop never terminates, see
`chunkLoopStep`/`chunkLoopGuard`). -/
def chunkAux (tokens : List (List Char)) (cs ov : Nat) :
    Nat → Nat → List (List (List Char))
  | 0, _ => []
  | fuel + 1, i =>
    if i < tokens.length then
      ((tokens.drop i).take cs) :: chunkAux tokens cs ov fuel (i + (cs - ov))
    else []

/-- The sequence of token windows produced by `_chunk_text`'s loop,
starting at `i = 0`. -/
def chunkWindows (tokens : List (List Char)) (cs ov : Nat) :
    List (List (List Char)) :=
  chunkAux tokens cs ov tokens.length 0

/-- Python `str.strip()` on a character list. -/
def stripChars (l : List Char) : List Char :=
  ((l.dropWhile isSpace).reverse.dropWhile isSpace).reverse

/-- The expression `"".join(tokens[i:i+chunk_size]).strip()`: a window of tokens
rendered as one chunk string. -/
def mkChunk (w : List (List Char)) : List Char :=
  stripChars w.flatten

/-- `_chunk_text(text, chunk_size, overlap)` from
`src/mcp_server/ingest/pdf_ingest.py`: tokenize, slide the window,
join and strip each window. -/
def _chunk_text (text : List Char) (cs ov : Nat) : List (List Char) :=
  (chunkWindows (tokenize text) cs ov).map mkChunk

/-- Concatenation of the chunks' token windows with the overlap
duplication ignored: the first window in full, every later window with
its first `overlap` tokens (the tokens repeated from the previous
window) removed. -/
def dropOverlaps (ov : Nat) : List (List (List Char)) → List (List Char)
  | [] => []
  | c :: rest => c ++ (rest.map (List.drop ov)).flatten

/-- The index update `i += chunk_size - overlap` of `_chunk_text`'s
loop, over the integers as in Python (the step may be zero or
negative when `overlap >= chunk_size`). -/
def chunkLoopStep (cs ov : Nat) (i : Int) : Int :=
  i + ((cs : Int) - (ov : Int))

/-- The guard `i < len(tokens)` of `_chunk_text`'s loop. -/
def chunkLoopGuard (tokens : List (List Char)) (i : Int) : Bool :=
  decide (i < (tokens.length : Int))

/-! ## Ingestion orchestrator (`ingest_folder`) -/

/-- Decimal rendering of a natural number, most significant digit
first, as Python's `str(i)` produces inside the f-strings of
`pdf_ingest.py` and `citations.py`.  The fuel argument only bounds the
recursion depth; `n + 1` steps always suffice. -/
def natStrAux : Nat → Nat → List Char
  | 0, _ => []
  | fuel + 1, n => if n = 0 then [] else natStrAux fuel (n / 10) ++ [Char.ofNat (48 + n % 10)]

/-- Python `str(n)` for a natural number. -/
def natStr (n : Nat) : List Char :=
  if n = 0 then ['0'] else natStrAux (n + 1) n

/-- Left fold turning a digit string back into its value (base 10). -/
def digitsAcc (acc : Nat) (l : List Char) : Nat :=
  l.foldl (fun a c => a * 10 + (c.toNat - 48)) acc

/-- The chunk id `f"{uuid.uuid4().hex}-{i}"` built by `ingest_folder`:
an arbitrary generator output followed by a dash and the chunk
index. -/
def mkId (uuidHex : List Char) (i : Nat) : List Char :=
  uuidHex ++ '-' :: natStr i

/-- Error kinds raised by the external collaborators of the ingestion
pipeline (extractor, embedding provider, index store). -/
inductive PipeErr where
  | extractionError : String → PipeErr
  | embeddingError : String → PipeErr
  | storeError : String → PipeErr
deriving DecidableEq

/-- The metadata committed with one chunk:
`{"source": full, "chunk_index": i}`. -/
structure MetaIngest where
  source : String
  chunk_index : Nat
deriving DecidableEq

/-- One committed index entry: id, chunk text and metadata (the three
parallel lists passed to `store.add`, zipped). -/
structure Entry where
  id : List Char
  text : List Char
  meta : MetaIngest
deriving DecidableEq

/-- The external collaborators of `ingest_folder`: text extractor,
embedding provider, store commit, and the random uuid source (one hex
string per file and chunk index). -/
structure Collab where
  extract : String → Except PipeErr (List Char)
  encode : List (List Char) → Except PipeErr (List (List Rat))
  storeAdd : List Entry → Except PipeErr Unit
  uuidHex : String → Nat → List Char

/-- The batch committed for one file:
`ids = [f"{uuid.uuid4().hex}-{i}" ...]`,
`metas = [{"source": full, "chunk_index": i} ...]` zipped with the
chunks. -/
def mkEntries (C : Collab) (path : String) (chunks : List (List Char)) : List Entry :=
  chunks.enum.map (fun p =>
    { id := mkId (C.uuidHex path p.1) p.1, text := p.2,
      meta := { source := path, chunk_index := p.1 } })

/-- ASCII model of Python `str.lower()` on one character. -/
def pyLower (c : Char) : Char :=
  if 65 ≤ c.toNat && c.toNat ≤ 90 then Char.ofNat (c.toNat + 32) else c

/-- The extension filter `name.lower().endswith(".pdf")`. -/
def isPdf (name : String) : Bool :=
  ((".pdf").data).isSuffixOf (name.data.map pyLower)

/-- The per-file pipeline body of `ingest_folder`: extract, chunk,
skip if no chunks, request embeddings (result unused), commit the
batch.  Any collaborator error aborts the file and propagates. -/
def processFile (C : Collab) (path : String) : Except PipeErr (List Entry) :=
  match C.extract path with
  | .error e => .error e
  | .ok text =>
    let chunks := _chunk_text text 800 120
    if chunks = [] then .ok []
    else
      match C.encode chunks with
      | .error e => .error e
      | .ok _vecs =>
        let entries := mkEntries C path chunks
        match C.storeAdd entries with
        | .error e => .error e
        | .ok _ => .ok entries

/-- `ingest_folder` from `src/mcp_server/ingest/pdf_ingest.py` over the
list of files discovered by `os.walk`, threading the store contents
(committed entries persist even when a later file fails) and the
running chunk total; the first collaborator error aborts the whole
call. -/
def ingest_folder (C : Collab) (files : List String) (st : List Entry) :
    List Entry × Except PipeErr Nat :=
  match files with
  | [] => (st, .ok 0)
  | f :: rest =>
    if isPdf f then
      match processFile C f with
      | .error e => (st, .error e)
      | .ok entries =>
        match ingest_folder C rest (st ++ entries) with
        | (st', .error e) => (st', .error e)
        | (st', .ok n) => (st', .ok (entries.length + n))
    else ingest_folder C rest st

/-! ## Vector store query (`VectorStore.query`) -/

/-- Open metadata mapping attached to a stored chunk. -/
def Mapping : Type := List (String × String)

instance : DecidableEq Mapping := by
  unfold Mapping
  infer_instance

/-- The normalized query result shape `{text, meta, score}`.  Scores
are modelled as rationals (the Python `float(...)` coercion is the
identity in this model). -/
structure QueryResult where
  text : String
  meta : Mapping
  score : Rat
deriving DecidableEq

/-- The raw response of `self.collection.query(...)`: each field is
optionally present (`none` models both an absent key and a `None`
value) and holds one inner list per query embedding. -/
structure ChromaOut where
  documents : Option (List (List String))
  metadatas : Option (List (List Mapping))
  distances : Option (List (List Rat))

/-- The expression `out.get(key, [[]])[0] if out.get(key) else []`:
empty when the field is missing or empty, otherwise its first inner
list. -/
def firstBatch {β : Type} : Option (List (List β)) → List β
  | none => []
  | some [] => []
  | some (x :: _) => x

/-- Default result used only as the `List.getD` fallback in theorem
statements. -/
def defaultQR : QueryResult :=
  { text := "", meta := ([] : List (String × String)), score := 0 }

/-- The result-assembly loop of `VectorStore.query`: one result per
returned document, metadata defaulting to the empty mapping and score
to the sentinel `1.0` when the corresponding list is too short. -/
def normalizeOut (out : ChromaOut) : List QueryResult :=
  let documents := firstBatch out.documents
  let metadatas := firstBatch out.metadatas
  let distances := firstBatch out.distances
  (List.range documents.length).map (fun i =>
    { text := documents.getD i (""), meta := metadatas.getD i ([] : List (String × String)),
      score := distances.getD i 1 })

/-- `VectorStore.query` from `src/mcp_server/vectorstore.py`: embed the
question (`embeddings.encode([question])[0]`, an exception when the
provider returns no vector), query the collection, normalize the raw
response. -/
def VectorStore.query (encode : List String → List (List Rat))
    (collectionQuery : List Rat → Nat → ChromaOut)
    (question : String) (top_k : Nat) : Option (List QueryResult) :=
  match encode [question] with
  | [] => none
  | qe :: _ => some (normalizeOut (collectionQuery qe top_k))

/-! ## Citation normalizer (`citations.py`) -/

/-- One author record of a Crossref message; each field models the
presence of the corresponding dict key (`a.get('family','')`). -/
structure CRAuthor where
  family : Option String
  given : Option String
deriving DecidableEq

/-- The bibliographic record returned by the metadata resolver
(`r.json().get("message", {})`), restricted to the fields
`citations.py` reads.  `issued` is doubly optional: the `issued` key
itself, then its `date-parts` key; a date part may be `None`. -/
structure CrossrefMessage where
  author : Option (List CRAuthor)
  title : Option (List String)
  issued : Option (Option (List (List (Option Nat))))
  DOI : Option String
deriving DecidableEq

/-- DOI extraction of `_crossref_lookup`: take the substring after the
last `doi.org/` marker when present, otherwise the identifier
itself. -/
def extractDoi (identifier : String) : String :=
  let parts := identifier.splitOn ("doi.org/")
  match parts with
  | [] => identifier
  | [_] => identifier
  | _ => parts.getLastD identifier

/-- `_crossref_lookup` with the network fetch abstracted as a
black-box resolver from DOI to record. -/
def _crossref_lookup (fetch : String → CrossrefMessage) (identifier : String) :
    CrossrefMessage :=
  fetch (extractDoi identifier)

/-- Python truthiness rendering `str(year) if year else ""` (equally
`f"{year or ''}"`): `None` and `0` render empty. -/
def pyYearStr (year : Option Nat) : String :=
  match year with
  | some y => if y = 0 then "" else String.mk (natStr y)
  | none => ""

/-- `_to_bibtex` from `src/mcp_server/citations.py`.  The result is
`none` when the Python code would raise an `IndexError` (indexing `[0]`
into an empty `title` or `date-parts` list). -/
def _to_bibtex (m : CrossrefMessage) : Option String :=
  let authors := m.author.getD []
  let author_str := String.intercalate (" and ")
    (authors.map (fun a => (a.family.getD ("")) ++ (", ") ++ (a.given.getD (""))))
  match (m.title.getD [("")]).head? with
  | none => none
  | some title =>
    match ((m.issued.getD none).getD [[none]]).head? with
    | none => none
    | some row =>
      match row.head? with
      | none => none
      | some year =>
        let doi := m.DOI.getD ("")
        let entry_key :=
          (match authors with
           | [] => "paper"
           | a :: _ => a.family.getD ("")) ++ pyYearStr year
        some ("@article\x7b" ++ entry_key ++ ",\n  title=\x7b " ++ title
          ++ " \x7d,\n  author=\x7b " ++ author_str ++ " \x7d,\n  year=\x7b "
          ++ pyYearStr year ++ " \x7d,\n  doi=\x7b " ++ doi ++ " \x7d\n\x7d")

/-! ### Structured-data serialization of the raw records

`build_citations` with a non-bibtex style returns
`json.dumps(messages, indent=2)`.  The encoder below renders the same
record structure (strings escaped, absent keys as `null`); the
pretty-printer's inter-token whitespace carries no information and is
elided.  The parsers that follow invert it, witnessing that the output
parses back to the raw records. -/

/-- JSON string-character escaping (quote and backslash). -/
def escChar (c : Char) : List Char :=
  if c = '\"' || c = '\\' then ['\\', c] else [c]

/-- Escape a whole character list. -/
def escapeChars : List Char → List Char
  | [] => []
  | c :: rest => escChar c ++ escapeChars rest

/-- A JSON string literal. -/
def encString (s : String) : List Char :=
  '\"' :: escapeChars s.data ++ ['\"']

/-- An optional value: `null` or the encoded value. -/
def encOpt {α : Type} (f : α → List Char) : Option α → List Char
  | none => ("null").data
  | some x => f x

/-- Body of a JSON array after the opening bracket: elements separated
by commas, closed by a bracket. -/
def encListInner {α : Type} (f : α → List Char) : List α → List Char
  | [] => [']']
  | [x] => f x ++ [']']
  | x :: y :: xs => f x ++ ',' :: encListInner f (y :: xs)

/-- A JSON array. -/
def encList {α : Type} (f : α → List Char) (xs : List α) : List Char :=
  '[' :: encListInner f xs

/-- One author object. -/
def encAuthor (a : CRAuthor) : List Char :=
  ("\x7b\"family\":").data ++ encOpt encString a.family
    ++ (",\"given\":").data ++ encOpt encString a.given ++ ['\x7d']

/-- One `date-parts` row. -/
def encRow (row : List (Option Nat)) : List Char :=
  encList (encOpt natStr) row

/-- The `issued` object. -/
def encIssued (inner : Option (List (List (Option Nat)))) : List Char :=
  ("\x7b\"date-parts\":").data ++ encOpt (encList encRow) inner ++ ['\x7d']

/-- One raw record. -/
def encMessage (m : CrossrefMessage) : List Char :=
  ("\x7b\"author\":").data ++ encOpt (encList encAuthor) m.author
    ++ (",\"title\":").data ++ encOpt (encList encString) m.title
    ++ (",\"issued\":").data ++ encOpt encIssued m.issued
    ++ (",\"DOI\":").data ++ encOpt encString m.DOI ++ ['\x7d']

/-- `json.dumps(messages)`: the list of raw records as one
structured-data string. -/
def dumpsMessages (msgs : List CrossrefMessage) : List Char :=
  encList encMessage msgs

/-- `build_citations(identifiers, style)` from
`src/mcp_server/citations.py`: fetch every record, then render as
BibTeX entries joined by blank lines when `style.lower() == "bibtex"`,
otherwise dump the raw records as a structured-data string. -/
def build_citations (lookup : String → CrossrefMessage)
    (identifiers : List String) (style : String) : Option String :=
  let messages := identifiers.map (_crossref_lookup lookup)
  if String.mk (style.data.map pyLower) = ("bibtex") then
    match messages.mapM _to_bibtex with
    | none => none
    | some entries => some (String.intercalate ("\n\n") entries)
  else some (String.mk (dumpsMessages messages))

/-! ### Parsers inverting the serialization -/

/-- Consume an exact literal. -/
def expectLit : List Char → List Char → Option (List Char)
  | [], l => some l
  | _ :: _, [] => none
  | c :: cs, d :: l => if c = d then expectLit cs l else none

/-- Consume the body of a string literal up to the closing quote,
undoing the escaping. -/
def parseStrAux : List Char → Option (List Char × List Char)
  | [] => none
  | c :: rest =>
    if c = '\"' then some ([], rest)
    else if c = '\\' then
      match rest with
      | [] => none
      | d :: rest2 =>
        match parseStrAux rest2 with
        | none => none
        | some (s, r) => some (d :: s, r)
    else
      match parseStrAux rest with
      | none => none
      | some (s, r) => some (c :: s, r)

/-- Parse a JSON string literal. -/
def parseString : List Char → Option (String × List Char)
  | '\"' :: rest =>
    match parseStrAux rest with
    | none => none
    | some (s, r) => some (String.mk s, r)
  | _ => none

/-- Consume a maximal run of decimal digits, folding up the value. -/
def readDigits : List Char → Nat → Nat × List Char
  | [], acc => (acc, [])
  | c :: rest, acc =>
    if c.isDigit then readDigits rest (acc * 10 + (c.toNat - 48)) else (acc, c :: rest)

/-- Parse a decimal numeral (at least one digit). -/
def parseNat : List Char → Option (Nat × List Char)
  | [] => none
  | c :: rest => if c.isDigit then some (readDigits (c :: rest) 0) else none

/-- Parse `null` or a value. -/
def parseOpt {α : Type} (p : List Char → Option (α × List Char)) (l : List Char) :
    Option (Option α × List Char) :=
  if l.take 4 = ("null").data then some (none, l.drop 4)
  else
    match p l with
    | none => none
    | some (v, r) => some (some v, r)

/-- Parse the comma-separated elements of a non-empty array up to the
closing bracket.  The element parser must consume at least one
character; the explicit length check makes the recursion well
founded. -/
def parseElems {α : Type} (p : List Char → Option (α × List Char)) (l : List Char) :
    Option (List α × List Char) :=
  match p l with
  | none => none
  | some (v, r) =>
    if h : r.length < l.length then
      match r, h with
      | ',' :: r2, _ =>
        match parseElems p r2 with
        | none => none
        | some (vs, r3) => some (v :: vs, r3)
      | ']' :: r2, _ => some ([v], r2)
      | _, _ => none
    else none
termination_by l.length
decreasing_by simp_all; omega

/-- Parse a JSON array. -/
def parseArr {α : Type} (p : List Char → Option (α × List Char)) (l : List Char) :
    Option (List α × List Char) :=
  match l with
  | '[' :: r =>
    if r.head? = some ']' then some (([] : List α), r.tail)
    else parseElems p r
  | _ => none

/-- Parse one author object. -/
def parseAuthor (l : List Char) : Option (CRAuthor × List Char) := do
  let r1 ← expectLit (("\x7b\"family\":").data) l
  let (fam, r2) ← parseOpt parseString r1
  let r3 ← expectLit ((",\"given\":").data) r2
  let (gv, r4) ← parseOpt parseString r3
  let r5 ← expectLit (['\x7d']) r4
  some ({ family := fam, given := gv }, r5)

/-- Parse the `issued` object. -/
def parseIssued (l : List Char) :
    Option (Option (List (List (Option Nat))) × List Char) := do
  let r1 ← expectLit (("\x7b\"date-parts\":").data) l
  let (dp, r2) ← parseOpt (parseArr (parseArr (parseOpt parseNat))) r1
  let r3 ← expectLit (['\x7d']) r2
  some (dp, r3)

/-- Parse one raw record. -/
def parseMessage (l : List Char) : Option (CrossrefMessage × List Char) := do
  let r1 ← expectLit (("\x7b\"author\":").data) l
  let (au, r2) ← parseOpt (parseArr parseAuthor) r1
  let r3 ← expectLit ((",\"title\":").data) r2
  let (ti, r4) ← parseOpt (parseArr parseString) r3
  let r5 ← expectLit ((",\"issued\":").data) r4
  let (iss, r6) ← parseOpt parseIssued r5
  let r7 ← expectLit ((",\"DOI\":").data) r6
  let (doi, r8) ← parseOpt parseString r7
  let r9 ← expectLit (['\x7d']) r8
  some ({ author := au, title := ti, issued := iss, DOI := doi }, r9)

/-- Parse a full dump back into the list of raw records, requiring the
whole string to be consumed. -/
def parseMessagesTop (s : String) : Option (List CrossrefMessage) :=
  match parseArr parseMessage s.data with
  | some (msgs, []) => some msgs
  | _ => none

/-! ## Concrete instances used by witnesses -/

/-- The resolver record of the spec's bibtex example. -/
def msgC7 : CrossrefMessage :=
  { author := some [{ family := some ("Doe"), given := some ("Jane") }],
    title := some [("A Study")], issued := some (some [[some 2021]]),
    DOI := some ("10.1000/xyz123") }

/-- A resolver returning that record for every DOI. -/
def lookupC7 : String → CrossrefMessage := fun _ => msgC7

/-- The single-line entry the claim asserts, whitespace exact. -/
def bibtexClaimString : String :=
  "@article\x7bDoe2021, title=\x7b A Study \x7d, author=\x7b Doe, Jane \x7d, year=\x7b 2021 \x7d, doi=\x7b 10.1000/xyz123 \x7d\x7d"

/-- The entry the code actually builds: the f-string of `_to_bibtex`
puts every field on its own line with a two-space indent. -/
def bibtexCodeString : String :=
  "@article\x7bDoe2021,\n  title=\x7b A Study \x7d,\n  author=\x7b Doe, Jane \x7d,\n  year=\x7b 2021 \x7d,\n  doi=\x7b 10.1000/xyz123 \x7d\n\x7d"

/-- Collaborators that fail extraction for `b.pdf` only. -/
def collabFail : Collab :=
  { extract := fun f =>
      if f = ("b.pdf") then Except.error (PipeErr.extractionError ("unreadable"))
      else Except.ok (("hello world").data),
    encode := fun _ => Except.ok [], storeAdd := fun _ => Except.ok (),
    uuidHex := fun _ _ => ['u'] }

/-- The batch `collabFail` commits for a file (empty for the failing
one). -/
def batchOfW (f : String) : List Entry :=
  match processFile collabFail f with
  | Except.ok es => es
  | Except.error _ => []

/-- Collaborators that always succeed. -/
def collabOk : Collab :=
  { extract := fun f =>
      Except.ok (if f = ("a.pdf") then ("alpha beta").data else ("gamma").data),
    encode := fun _ => Except.ok [], storeAdd := fun _ => Except.ok (),
    uuidHex := fun _ _ => ['u'] }

/-- The extraction results of `collabOk` as a plain function. -/
def extractOk (f : String) : List Char :=
  if f = ("a.pdf") then ("alpha beta").data else ("gamma").data

/-- Collaborators whose extractor returns only whitespace. -/
def collabWs : Collab :=
  { extract := fun _ => Except.ok (("  \t ").data),
    encode := fun _ => Except.ok [], storeAdd := fun _ => Except.ok (),
    uuidHex := fun _ _ => ['u'] }

/-- An embedding provider returning one vector. -/
def encodeW : List String → List (List Rat) := fun _ => [[1]]

/-- A collection query returning two matches whatever `top_k` asks. -/
def cqW : List Rat → Nat → ChromaOut := fun _ _ =>
  { documents := some [[("d1"), ("d2")]], metadatas := none, distances := none }

/-- A raw store response with two documents and no metadata or
distance lists. -/
def outW : ChromaOut :=
  { documents := some [[("d1"), ("d2")]], metadatas := none, distances := none }

/-- A record and resolver for the structured-dump witness. -/
def msgW8 : CrossrefMessage :=
  { author := none, title := some [("T")], issued := some none, DOI := some ("d") }

/-- Resolver for the structured-dump witness. -/
def lookupW8 : String → CrossrefMessage := fun _ => msgW8

/-! ## Word-level view of tokens

A token produced by `re.findall(r"\S+\s*", ...)` is a non-whitespace
word followed by trailing whitespace.  The definitions below split a
token into those two parts; they let the chunk-level reconstruction
statement compare token streams word by word (chunk trimming only
affects trailing whitespace inside the final token of a chunk). -/

/-- The `\S+` part of a token. -/
def wordOf (t : List Char) : List Char :=
  t.takeWhile (fun c => !isSpace c)

/-- The `\s*` part of a token. -/
def spTail (t : List Char) : List Char :=
  t.dropWhile (fun c => !isSpace c)

/-- A well-formed token: a non-empty word, then only whitespace. -/
def WFtok (t : List Char) : Prop :=
  wordOf t ≠ [] ∧ ∀ c ∈ spTail t, isSpace c = true

/-- The token ends with a whitespace character. -/
def endsSpace (t : List Char) : Prop :=
  ∃ c, t.getLast? = some c ∧ isSpace c = true

/-- Invariant of the tokenizer accumulator: the pending token splits
into a word part and a space part, every finished token is well
formed, every finished token but the last ends in whitespace, and a
non-empty finished list forces a pending token ending in
whitespace. -/
def StInv : List Char × List (List Char) → Prop := fun st =>
  (∃ ns sp, st.1 = ns ++ sp ∧ (∀ c ∈ ns, isSpace c = false) ∧
      (∀ c ∈ sp, isSpace c = true)) ∧
    (∀ t ∈ st.2, WFtok t) ∧
    (∀ t ∈ st.2.dropLast, endsSpace t) ∧
    (st.2 ≠ [] → st.1 ≠ [] ∧ endsSpace st.1)

/-! ## Theorems: the text segmenter -/

/-- Key computation of the segmenter: dropping the first `ov` tokens
of every window and concatenating yields the token stream from
position `i + ov` on, provided the fuel covers the remaining tokens. -/
theorem chunkAux_join_drop (tokens : List (List Char)) (cs ov : Nat) (h : ov < cs) :
    ∀ fuel i, tokens.length - i ≤ fuel →
      ((chunkAux tokens cs ov fuel i).map (List.drop ov)).flatten = tokens.drop (i + ov) := by
  intro fuel
  induction fuel with
  | zero =>
    intro i hi
    have hlen : tokens.length ≤ i := by omega
    simp [chunkAux, List.drop_eq_nil_of_le (le_trans hlen (Nat.le_add_right i ov))]
  | succ fuel ih =>
    intro i hi
    by_cases hlt : i < tokens.length
    · have hstep : 1 ≤ cs - ov := by omega
      have hrec := ih (i + (cs - ov)) (by omega)
      simp only [chunkAux, if_pos hlt, List.map_cons, List.flatten_cons, hrec]
      have h1 : (((tokens.drop i).take cs).drop ov) = ((tokens.drop i).drop ov).take (cs - ov) := by
        rw [List.drop_take]
      have h2 : ((tokens.drop i).drop ov) = tokens.drop (i + ov) := by
        rw [List.drop_drop, Nat.add_comm]
      rw [h1, h2]
      have h3 : tokens.drop (i + (cs - ov) + ov) = (tokens.drop (i + ov)).drop (cs - ov) := by
        rw [List.drop_drop]
        congr 1
        omega
      rw [h3, List.take_append_drop]
    · simp [chunkAux, if_neg hlt, List.drop_eq_nil_of_le]
      omega

/-- Reconstruction for a whole run of the loop: the first window in
full, later windows without their first `ov` tokens, concatenated,
give back the token list. -/
theorem dropOverlaps_chunkWindows (toks : List (List Char)) (cs ov : Nat) (h : ov < cs) :
    dropOverlaps ov (chunkWindows toks cs ov) = toks := by
  cases toks with
  | nil => rfl
  | cons t ts =>
    have hj := chunkAux_join_drop (t :: ts) cs ov h ts.length (0 + (cs - ov))
      (by simp; omega)
    have hcs : 0 + (cs - ov) + ov = cs := by omega
    rw [hcs] at hj
    show dropOverlaps ov (chunkAux (t :: ts) cs ov (t :: ts).length 0) = t :: ts
    have hlen : (t :: ts).length = ts.length + 1 := by simp
    rw [hlen]
    simp only [chunkAux, List.length_cons, Nat.zero_lt_succ, if_pos, dropOverlaps,
      hj, List.drop_zero]
    exact List.take_append_drop cs (t :: ts)

/-- With `overlap >= chunk_size` the integer index of the loop never
increases, so it stays nonpositive. -/
theorem chunkLoopStep_iterate_nonpos (cs ov : Nat) (hle : cs ≤ ov) (n : Nat) :
    (chunkLoopStep cs ov)^[n] 0 ≤ 0 := by
  induction n with
  | zero => simp
  | succ n ih =>
    rw [Function.iterate_succ_apply']
    have hstep : chunkLoopStep cs ov ((chunkLoopStep cs ov)^[n] 0)
        = ((chunkLoopStep cs ov)^[n] 0) + ((cs : Int) - (ov : Int)) := rfl
    rw [hstep]
    have hc : (cs : Int) ≤ (ov : Int) := by exact_mod_cast hle
    omega

/-- C2 (code bug): `_chunk_text` performs no validation of
`overlap >= chunk_size` (no `SegmentationError` exists anywhere in the
code); on a non-empty token list the loop guard `i < len(tokens)`
remains true after every iteration, so the loop never terminates
instead of raising.  Shown here at the failing input
`text = "a b"`, `chunk_size = 1`, `overlap = 1`. -/
theorem chunk_overlap_loop_diverges :
    ∀ n : Nat, chunkLoopGuard (tokenize (("a b").data)) ((chunkLoopStep 1 1)^[n] 0) = true := by
  intro n
  have h := chunkLoopStep_iterate_nonpos 1 1 (le_refl 1) n
  unfold chunkLoopGuard
  have hlen : (tokenize (("a b").data)).length = 2 := rfl
  simp only [decide_eq_true_eq, hlen]
  omega

/-- Folding the tokenizer step over an all-whitespace list only grows
the pending (never-emitted) whitespace run. -/
theorem foldr_tokStep_allspace (l : List Char) (h : ∀ c ∈ l, isSpace c = true) :
    l.foldr tokStep ([], []) = (l, []) := by
  induction l with
  | nil => rfl
  | cons c l ih =>
    have hc : isSpace c = true := h c (List.mem_cons_self c l)
    have hl : ∀ x ∈ l, isSpace x = true := fun x hx => h x (List.mem_cons_of_mem c hx)
    rw [List.foldr_cons, ih hl]
    cases l with
    | nil => simp [tokStep, hc]
    | cons d l2 =>
      have hd : isSpace d = true := hl d (List.mem_cons_self d l2)
      simp [tokStep, hc, hd]

/-- An all-whitespace text has no tokens. -/
theorem tokenize_allspace (l : List Char) (h : ∀ c ∈ l, isSpace c = true) :
    tokenize l = [] := by
  have hdw : l.dropWhile isSpace = [] := by
    induction l with
    | nil => rfl
    | cons c l ih =>
      have hc : isSpace c = true := h c (List.mem_cons_self c l)
      simp [List.dropWhile_cons, hc,
        ih (fun x hx => h x (List.mem_cons_of_mem c hx))]
  unfold tokenize
  rw [foldr_tokStep_allspace l h]
  simp [hdw]

/-- C9: a non-empty input containing only whitespace tokenizes to
nothing, so the segmenter returns the empty chunk sequence -- the same
result as for the empty string -- and the per-file ingestion step
skips such a document without error (it commits nothing and calls
neither the embedding provider nor the store). -/
theorem whitespace_doc_yields_no_chunks (text : List Char)
    (h : ∀ c ∈ text, isSpace c = true) (cs ov : Nat) :
    _chunk_text text cs ov = [] ∧ _chunk_text [] cs ov = [] ∧
      ∀ (C : Collab) (f : String), C.extract f = Except.ok text →
        processFile C f = Except.ok [] := by
  have htok : tokenize text = [] := tokenize_allspace text h
  have hchunks : ∀ cs2 ov2 : Nat, _chunk_text text cs2 ov2 = [] := by
    intro cs2 ov2
    unfold _chunk_text chunkWindows
    rw [htok]
    rfl
  refine ⟨hchunks cs ov, rfl, ?_⟩
  intro C f hex
  simp [processFile, hex, hchunks 800 120]

/-- Witness for `whitespace_doc_yields_no_chunks` at a concrete
whitespace-only document. -/
theorem whitespace_doc_yields_no_chunks_witness :
    _chunk_text (("  \t ").data) 5 2 = [] ∧ _chunk_text [] 5 2 = [] ∧
      processFile collabWs ("w.pdf") = Except.ok [] := by
  have H := whitespace_doc_yields_no_chunks (("  \t ").data) (by decide) 5 2
  exact ⟨H.1, H.2.1, H.2.2 collabWs ("w.pdf") rfl⟩

/-! ## Theorems: the ingestion orchestrator -/

/-- One batch has exactly one entry per chunk. -/
theorem mkEntries_length (C : Collab) (p : String) (cs : List (List Char)) :
    (mkEntries C p cs).length = cs.length := by
  simp [mkEntries]

/-- The committed `chunk_index` values of one batch are
`0 .. chunks.length - 1` in order. -/
theorem mkEntries_map_index (C : Collab) (p : String) (cs : List (List Char)) :
    (mkEntries C p cs).map (fun ent => ent.meta.chunk_index)
      = List.range cs.length := by
  unfold mkEntries
  rw [List.map_map]
  have hfun : ((fun ent => ent.meta.chunk_index) ∘
      (fun q : Nat × List Char =>
        ({ id := mkId (C.uuidHex p q.1) q.1, text := q.2,
           meta := { source := p, chunk_index := q.1 } } : Entry))) =
      (Prod.fst : Nat × List Char → Nat) := by
    funext q
    rfl
  rw [hfun]
  exact List.enum_map_fst cs

/-- When every collaborator answers, the per-file pipeline commits the
batch derived from the extracted text (the empty batch when
segmentation yields no chunk). -/
theorem processFile_ok (C : Collab) (f : String) (t : List Char)
    (hex : C.extract f = Except.ok t)
    (henc : ∀ chunks, ∃ v, C.encode chunks = Except.ok v)
    (hadd : ∀ ents, C.storeAdd ents = Except.ok ()) :
    processFile C f = Except.ok (mkEntries C f (_chunk_text t 800 120)) := by
  unfold processFile
  rw [hex]
  by_cases hc : _chunk_text t 800 120 = []
  · simp [hc, mkEntries]
  · obtain ⟨v, hv⟩ := henc (_chunk_text t 800 120)
    simp [hc, hv, hadd]

/-- Successful run of `ingest_folder`: one commit per file in order
and the returned total is the sum of the per-file chunk counts. -/
theorem ingest_folder_ok (C : Collab) (e : String → List Char)
    (files : List String)
    (hpdf : ∀ f ∈ files, isPdf f = true)
    (hex : ∀ f ∈ files, C.extract f = Except.ok (e f))
    (henc : ∀ chunks, ∃ v, C.encode chunks = Except.ok v)
    (hadd : ∀ ents, C.storeAdd ents = Except.ok ()) :
    ∀ st, ingest_folder C files st =
      (st ++ (files.map (fun f => mkEntries C f (_chunk_text (e f) 800 120))).flatten,
        Except.ok ((files.map (fun f => (_chunk_text (e f) 800 120).length)).sum)) := by
  induction files with
  | nil =>
    intro st
    simp [ingest_folder]
  | cons f rest ih =>
    intro st
    have hf : isPdf f = true := hpdf f (List.mem_cons_self f rest)
    have hpf := processFile_ok C f (e f) (hex f (List.mem_cons_self f rest)) henc hadd
    have ihr := ih (fun x hx => hpdf x (List.mem_cons_of_mem f hx))
      (fun x hx => hex x (List.mem_cons_of_mem f hx))
      (st ++ mkEntries C f (_chunk_text (e f) 800 120))
    simp only [ingest_folder, hf, if_pos, hpf, ihr, List.map_cons, List.flatten_cons,
      List.sum_cons, mkEntries_length, List.append_assoc]

/-- C3: ingesting a folder of N ingestible documents (all pass the
extension filter and every collaborator answers) returns the sum of
the per-document chunk counts, commits one batch per document in
order, and within each committed batch the `chunk_index` metadata
values are exactly `0 .. k-1`, contiguous, without gaps or
duplicates. -/
theorem ingest_totals_and_indices (C : Collab) (e : String → List Char)
    (files : List String) (st : List Entry)
    (hpdf : ∀ f ∈ files, isPdf f = true)
    (hex : ∀ f ∈ files, C.extract f = Except.ok (e f))
    (henc : ∀ chunks, ∃ v, C.encode chunks = Except.ok v)
    (hadd : ∀ ents, C.storeAdd ents = Except.ok ()) :
    ingest_folder C files st =
      (st ++ (files.map (fun f => mkEntries C f (_chunk_text (e f) 800 120))).flatten,
        Except.ok ((files.map (fun f => (_chunk_text (e f) 800 120).length)).sum)) ∧
      ∀ f, (mkEntries C f (_chunk_text (e f) 800 120)).map (fun ent => ent.meta.chunk_index)
          = List.range (_chunk_text (e f) 800 120).length :=
  ⟨ingest_folder_ok C e files hpdf hex henc hadd st,
    fun f => mkEntries_map_index C f (_chunk_text (e f) 800 120)⟩

/-- Witness for `ingest_totals_and_indices` on a concrete two-file
folder. -/
theorem ingest_totals_and_indices_witness :
    ingest_folder collabOk [("a.pdf"), ("b.pdf")] [] =
      ([] ++ (([("a.pdf"), ("b.pdf")]).map
          (fun f => mkEntries collabOk f (_chunk_text (extractOk f) 800 120))).flatten,
        Except.ok ((([("a.pdf"), ("b.pdf")]).map
          (fun f => (_chunk_text (extractOk f) 800 120).length)).sum)) ∧
      (mkEntries collabOk ("a.pdf") (_chunk_text (extractOk ("a.pdf")) 800 120)).map
          (fun ent => ent.meta.chunk_index)
        = List.range (_chunk_text (extractOk ("a.pdf")) 800 120).length := by
  have H := ingest_totals_and_indices collabOk extractOk [("a.pdf"), ("b.pdf")] []
    (by decide) (fun f _ => rfl) (fun chunks => ⟨[], rfl⟩) (fun ents => rfl)
  exact ⟨H.1, H.2 ("a.pdf")⟩

/-- C4: if one file's pipeline step fails (extraction, embedding or
store commit), the whole ingest call aborts with exactly that error;
the batches committed for the files processed before the failure
remain in the store, and no later file is processed. -/
theorem ingest_fail_fast (C : Collab) (bad : String) (post : List String)
    (err : PipeErr) (batches : String → List Entry)
    (hbadpdf : isPdf bad = true)
    (hbad : processFile C bad = Except.error err) :
    ∀ pre, (∀ f ∈ pre, isPdf f = true) →
      (∀ f ∈ pre, processFile C f = Except.ok (batches f)) →
      ∀ st, ingest_folder C (pre ++ bad :: post) st
        = (st ++ (pre.map batches).flatten, Except.error err) := by
  intro pre
  induction pre with
  | nil =>
    intro _ _ st
    simp [ingest_folder, hbadpdf, hbad]
  | cons f rest ih =>
    intro hpdf hpre st
    have hf := hpdf f (List.mem_cons_self f rest)
    have hpf := hpre f (List.mem_cons_self f rest)
    have ihr := ih (fun x hx => hpdf x (List.mem_cons_of_mem f hx))
      (fun x hx => hpre x (List.mem_cons_of_mem f hx)) (st ++ batches f)
    simp only [List.cons_append, ingest_folder, hf, if_pos, hpf, List.append_eq, ihr,
      List.map_cons, List.flatten_cons, List.append_assoc]

/-- Witness for `ingest_fail_fast`: the second of three files fails
extraction; the first file's batch stays committed and the error
surfaces unmodified. -/
theorem ingest_fail_fast_witness :
    ingest_folder collabFail ([("a.pdf")] ++ ("b.pdf") :: [("c.pdf")]) []
      = ([] ++ ([("a.pdf")].map batchOfW).flatten,
         Except.error (PipeErr.extractionError ("unreadable"))) :=
  ingest_fail_fast collabFail ("b.pdf") [("c.pdf")]
    (PipeErr.extractionError ("unreadable")) batchOfW (by decide) rfl
    [("a.pdf")] (by decide)
    (by
      intro f hf
      simp only [List.mem_singleton] at hf
      subst hf
      rfl) []

/-! ## Theorems: distinctness of generated ids -/

/-- Every character emitted by `natStrAux` is a decimal digit. -/
theorem natStrAux_digits : ∀ fuel n, ∀ c ∈ natStrAux fuel n, c.isDigit = true := by
  intro fuel
  induction fuel with
  | zero =>
    intro n c hc
    simp [natStrAux] at hc
  | succ fuel ih =>
    intro n c hc
    by_cases hn : n = 0
    · simp [natStrAux, hn] at hc
    · simp only [natStrAux, if_neg hn] at hc
      rcases List.mem_append.mp hc with h1 | h2
      · exact ih (n / 10) c h1
      · have hce : c = Char.ofNat (48 + n % 10) := by simpa using h2
        subst hce
        have h10 : n % 10 < 10 := Nat.mod_lt _ (by norm_num)
        revert h10
        generalize n % 10 = d
        intro h10
        interval_cases d <;> decide

/-- Every character of `str(n)` is a decimal digit. -/
theorem natStr_digits (n : Nat) : ∀ c ∈ natStr n, c.isDigit = true := by
  intro c hc
  unfold natStr at hc
  by_cases hn : n = 0
  · simp only [if_pos hn, List.mem_singleton] at hc
    subst hc
    decide
  · simp only [if_neg hn] at hc
    exact natStrAux_digits (n + 1) n c hc

/-- Folding over concatenated digit strings composes. -/
theorem digitsAcc_append (acc : Nat) (a b : List Char) :
    digitsAcc acc (a ++ b) = digitsAcc (digitsAcc acc a) b := by
  unfold digitsAcc
  rw [List.foldl_append]

/-- Value of the digits produced by `natStrAux`. -/
theorem digitsAcc_natStrAux : ∀ fuel n acc, n < fuel →
    digitsAcc acc (natStrAux fuel n)
      = acc * 10 ^ (natStrAux fuel n).length + n := by
  intro fuel
  induction fuel with
  | zero =>
    intro n acc h
    omega
  | succ fuel ih =>
    intro n acc h
    by_cases hn : n = 0
    · simp [natStrAux, hn, digitsAcc]
    · have hlt : n / 10 < fuel := by
        have := Nat.div_lt_self (Nat.pos_of_ne_zero hn) (by norm_num : 1 < 10)
        omega
      simp only [natStrAux, if_neg hn]
      rw [digitsAcc_append, ih (n / 10) acc hlt]
      have hval : (Char.ofNat (48 + n % 10)).toNat - 48 = n % 10 := by
        have h10 : n % 10 < 10 := Nat.mod_lt _ (by norm_num)
        revert h10
        generalize n % 10 = d
        intro h10
        interval_cases d <;> decide
      unfold digitsAcc
      simp only [List.foldl_cons, List.foldl_nil, hval, List.length_append,
        List.length_cons, List.length_nil]
      calc (acc * 10 ^ (natStrAux fuel (n / 10)).length + n / 10) * 10 + n % 10
          = acc * (10 ^ (natStrAux fuel (n / 10)).length * 10)
              + (n / 10 * 10 + n % 10) := by ring
        _ = acc * 10 ^ ((natStrAux fuel (n / 10)).length + (0 + 1)) + n := by
            rw [pow_succ]
            congr 2
            omega

/-- Decimal rendering evaluates back to the number. -/
theorem natStr_val (n : Nat) : digitsAcc 0 (natStr n) = n := by
  unfold natStr
  by_cases hn : n = 0
  · subst hn
    decide
  · simp only [if_neg hn]
    rw [digitsAcc_natStrAux (n + 1) n 0 (Nat.lt_succ_self n)]
    simp

/-- Python decimal renderings of distinct numbers differ. -/
theorem natStr_injective : Function.Injective natStr := by
  intro a b h
  have hv := congrArg (digitsAcc 0) h
  rwa [natStr_val, natStr_val] at hv

/-- Cancellation around a non-digit separator: if two digit strings
followed by the same separator and arbitrary tails concatenate to the
same list, the digit strings and the tails agree. -/
theorem append_sep_inj : ∀ (a1 a2 b1 b2 : List Char) (c : Char),
    (∀ x ∈ a1, x.isDigit = true) → (∀ x ∈ a2, x.isDigit = true) →
    c.isDigit = false →
    a1 ++ c :: b1 = a2 ++ c :: b2 → a1 = a2 ∧ b1 = b2 := by
  intro a1
  induction a1 with
  | nil =>
    intro a2 b1 b2 c h1 h2 hc heq
    cases a2 with
    | nil => simpa using heq
    | cons y a2t =>
      simp only [List.nil_append, List.cons_append, List.cons.injEq] at heq
      have hy : y.isDigit = true := h2 y (List.mem_cons_self y a2t)
      rw [← heq.1] at hy
      rw [hc] at hy
      exact absurd hy (by simp)
  | cons x a1t ih =>
    intro a2 b1 b2 c h1 h2 hc heq
    cases a2 with
    | nil =>
      simp only [List.cons_append, List.nil_append, List.cons.injEq] at heq
      have hx : x.isDigit = true := h1 x (List.mem_cons_self x a1t)
      rw [heq.1, hc] at hx
      exact absurd hx (by simp)
    | cons y a2t =>
      simp only [List.cons_append, List.cons.injEq] at heq
      obtain ⟨hxy, htail⟩ := heq
      obtain ⟨ha, hb⟩ := ih a2t b1 b2 c
        (fun z hz => h1 z (List.mem_cons_of_mem x hz))
        (fun z hz => h2 z (List.mem_cons_of_mem y hz)) hc htail
      exact ⟨by rw [hxy, ha], hb⟩

/-- Whatever hex strings the uuid generator returns, ids that carry
distinct index suffixes differ: the index is the maximal digit run
after the final dash. -/
theorem mkId_inj (u : Nat → List Char) :
    Function.Injective (fun i => mkId (u i) i) := by
  intro i j h
  simp only [mkId] at h
  have hrev := congrArg List.reverse h
  simp only [List.reverse_append, List.reverse_cons, List.append_assoc,
    List.singleton_append] at hrev
  have hdig1 : ∀ x ∈ (natStr i).reverse, x.isDigit = true :=
    fun x hx => natStr_digits i x (List.mem_reverse.mp hx)
  have hdig2 : ∀ x ∈ (natStr j).reverse, x.isDigit = true :=
    fun x hx => natStr_digits j x (List.mem_reverse.mp hx)
  have hdash : ('-').isDigit = false := by decide
  obtain ⟨ha, _⟩ := append_sep_inj ((natStr i).reverse) ((natStr j).reverse)
    ((u i).reverse) ((u j).reverse) '-' hdig1 hdig2 hdash hrev
  have hs : natStr i = natStr j := by
    have := congrArg List.reverse ha
    simpa using this
  exact natStr_injective hs

/-- C10: the ids generated for one committed batch are pairwise
distinct regardless of the values the random uuid generator produced,
because each id ends in a dash followed by that chunk's decimal
index. -/
theorem batch_ids_nodup (C : Collab) (path : String) (chunks : List (List Char)) :
    ((mkEntries C path chunks).map Entry.id).Nodup := by
  unfold mkEntries
  rw [List.map_map]
  have hfun : (Entry.id ∘ (fun q : Nat × List Char =>
      ({ id := mkId (C.uuidHex path q.1) q.1, text := q.2,
         meta := { source := path, chunk_index := q.1 } } : Entry))) =
      ((fun i => mkId (C.uuidHex path i) i) ∘ (Prod.fst : Nat × List Char → Nat)) := by
    funext q
    rfl
  rw [hfun, ← List.map_map, List.enum_map_fst]
  exact List.Nodup.map (mkId_inj (C.uuidHex path)) (List.nodup_range chunks.length)

/-! ## Theorems: the query orchestrator -/

/-- C5: the query result sequence has exactly as many elements as the
store returned documents -- no padding to `top_k`, no exception (the
`some` result); in particular `top_k = 5` against a store holding two
entries yields two results. -/
theorem query_truncates_to_store_matches (encode : List String → List (List Rat))
    (cq : List Rat → Nat → ChromaOut) (question : String) (top_k : Nat)
    (qe : List Rat) (restv : List (List Rat))
    (henc : encode [question] = qe :: restv) :
    Option.map List.length (VectorStore.query encode cq question top_k)
      = some ((firstBatch (cq qe top_k).documents).length) := by
  unfold VectorStore.query
  rw [henc]
  simp [normalizeOut]

/-- Witness for `query_truncates_to_store_matches`: `top_k = 5`
against a response holding two documents gives exactly two results. -/
theorem query_truncates_witness :
    encodeW [("q")] = [[1]] ∧
      Option.map List.length (VectorStore.query encodeW cqW ("q") 5) = some 2 := by
  refine ⟨rfl, ?_⟩
  have H := query_truncates_to_store_matches encodeW cqW ("q") 5 [1] [] rfl
  exact H.trans (by decide)

/-- C6: every normalized result has the `{text, meta, score}` shape by
construction; when the store response has no metadata for an entry the
result's `meta` is the empty mapping, and when it has no score the
result's `score` is the defined sentinel `1`. -/
theorem query_result_shape_defaults (out : ChromaOut) (i : Nat)
    (hi : i < (normalizeOut out).length) :
    ((firstBatch out.metadatas).length ≤ i →
        ((normalizeOut out).getD i defaultQR).meta = ([] : List (String × String))) ∧
      ((firstBatch out.distances).length ≤ i →
        ((normalizeOut out).getD i defaultQR).score = 1) ∧
      (out.metadatas = none →
        ((normalizeOut out).getD i defaultQR).meta = ([] : List (String × String))) ∧
      (out.distances = none →
        ((normalizeOut out).getD i defaultQR).score = 1) := by
  have hlen : i < (firstBatch out.documents).length := by
    simpa [normalizeOut] using hi
  have hval : (normalizeOut out).getD i defaultQR =
      { text := (firstBatch out.documents).getD i (""),
        meta := (firstBatch out.metadatas).getD i ([] : List (String × String)),
        score := (firstBatch out.distances).getD i 1 } := by
    unfold normalizeOut
    rw [List.getD_eq_getElem?_getD, List.getElem?_map, List.getElem?_range hlen]
    rfl
  refine ⟨?_, ?_, ?_, ?_⟩
  · intro hm
    rw [hval]
    simp [List.getElem?_eq_none hm]
  · intro hd
    rw [hval]
    simp [List.getElem?_eq_none hd]
  · intro hm
    rw [hval]
    simp [hm, firstBatch]
  · intro hd
    rw [hval]
    simp [hd, firstBatch]

/-- Witness for `query_result_shape_defaults`: a response with two
documents and neither metadata nor distances. -/
theorem query_result_shape_defaults_witness :
    ((normalizeOut outW).getD 1 defaultQR).meta = ([] : List (String × String)) ∧
      ((normalizeOut outW).getD 1 defaultQR).score = 1 := by
  have H := query_result_shape_defaults outW 1 (by decide)
  exact ⟨H.1 (by decide), H.2.1 (by decide)⟩

/-! ## Theorems: the citation normalizer -/

/-- C7 counterexample: against the example resolver record,
`build_citations` with style `bibtex` does not return the single-line
entry the claim quotes as whitespace exact -- the f-string of
`_to_bibtex` separates the fields with newlines and two-space
indents. -/
theorem bibtex_entry_not_single_line :
    build_citations lookupC7 [("10.1000/xyz123")] ("bibtex")
      ≠ some bibtexClaimString := by
  decide

/-- C7 (amended): against that resolver record, `build_citations`
returns exactly one `@article` entry whose key is `Doe2021` and whose
title, author, year and doi fields carry the claimed values, each
field on its own line with a two-space indent (whitespace exact). -/
theorem bibtex_entry_exact :
    build_citations lookupC7 [("10.1000/xyz123")] ("bibtex")
      = some bibtexCodeString := by
  decide

/-! ## Theorems: the structured dump parses back (round trips) -/

/-- A literal consumes itself. -/
theorem expectLit_append (lit rest : List Char) :
    expectLit lit (lit ++ rest) = some rest := by
  induction lit with
  | nil => rfl
  | cons c cs ih => simp [expectLit, ih]

/-- Unescaping inverts escaping up to the closing quote. -/
theorem parseStrAux_round : ∀ (s rest : List Char),
    parseStrAux (escapeChars s ++ '\"' :: rest) = some (s, rest) := by
  intro s
  induction s with
  | nil =>
    intro rest
    have hshape : escapeChars [] ++ '\"' :: rest = '\"' :: rest := by
      simp [escapeChars]
    rw [hshape, parseStrAux.eq_def]
    simp
  | cons c cs ih =>
    intro rest
    by_cases hc : c = '\"' ∨ c = '\\'
    · have hesc : escChar c = ['\\', c] := by
        unfold escChar
        rcases hc with h | h <;> simp [h]
      have hshape : escapeChars (c :: cs) ++ '\"' :: rest
          = '\\' :: c :: (escapeChars cs ++ '\"' :: rest) := by
        simp [escapeChars, hesc]
      rw [hshape, parseStrAux.eq_def]
      simp [ih]
    · push_neg at hc
      have hesc : escChar c = [c] := by
        unfold escChar
        simp [hc.1, hc.2]
      have hshape : escapeChars (c :: cs) ++ '\"' :: rest
          = c :: (escapeChars cs ++ '\"' :: rest) := by
        simp [escapeChars, hesc]
      rw [hshape, parseStrAux.eq_def]
      simp [hc.1, hc.2, ih]

/-- A JSON string literal parses back to the string. -/
theorem parseString_round (s : String) (rest : List Char) :
    parseString (encString s ++ rest) = some (s, rest) := by
  have hshape : encString s ++ rest
      = '\"' :: (escapeChars s.data ++ '\"' :: rest) := by
    simp [encString]
  rw [hshape]
  simp [parseString, parseStrAux_round]

/-- Reading digits over a digit string folds the value. -/
theorem readDigits_append (dl : List Char) (hdl : ∀ c ∈ dl, c.isDigit = true) :
    ∀ (rest : List Char) (acc : Nat),
      readDigits (dl ++ rest) acc = readDigits rest (digitsAcc acc dl) := by
  induction dl with
  | nil =>
    intro rest acc
    simp [digitsAcc]
  | cons c cs ih =>
    intro rest acc
    have hc : c.isDigit = true := hdl c (List.mem_cons_self c cs)
    have hstep : digitsAcc acc (c :: cs) = digitsAcc (acc * 10 + (c.toNat - 48)) cs := by
      simp [digitsAcc]
    simp only [List.cons_append, readDigits, hc, if_pos, hstep]
    exact ih (fun x hx => hdl x (List.mem_cons_of_mem c hx)) rest _

/-- Reading digits stops at a non-digit (or the end). -/
theorem readDigits_stop (rest : List Char) (acc : Nat)
    (hrest : ∀ c, rest.head? = some c → c.isDigit = false) :
    readDigits rest acc = (acc, rest) := by
  cases rest with
  | nil => rfl
  | cons c t =>
    have hc : c.isDigit = false := hrest c rfl
    simp [readDigits, hc]

/-- Decimal renderings are never empty. -/
theorem natStr_ne_nil (n : Nat) : natStr n ≠ [] := by
  unfold natStr
  by_cases hn : n = 0
  · simp [hn]
  · simp only [if_neg hn]
    intro h
    rw [natStrAux] at h
    simp [hn] at h

/-- A decimal numeral parses back to its value when not followed by a
digit. -/
theorem parseNat_round (n : Nat) (rest : List Char)
    (hrest : ∀ c, rest.head? = some c → c.isDigit = false) :
    parseNat (natStr n ++ rest) = some (n, rest) := by
  cases hns : natStr n with
  | nil => exact absurd hns (natStr_ne_nil n)
  | cons c t =>
    have hc : c.isDigit = true := by
      have hmem : c ∈ natStr n := by
        rw [hns]
        exact List.mem_cons_self c t
      exact natStr_digits n c hmem
    have key : readDigits (c :: (t ++ rest)) 0 = (n, rest) := by
      have h1 := readDigits_append (natStr n) (natStr_digits n) rest 0
      rw [hns] at h1
      simp only [List.cons_append] at h1
      rw [h1, readDigits_stop rest _ hrest, ← hns, natStr_val]
    simp only [List.cons_append]
    simp [parseNat, hc, key]

/-- `null` parses back to `none`. -/
theorem parseOpt_null {α : Type} (p : List Char → Option (α × List Char))
    (rest : List Char) :
    parseOpt p (("null").data ++ rest) = some ((none : Option α), rest) := by
  have ht : ((("null").data ++ rest).take 4) = ("null").data := rfl
  have hd : ((("null").data ++ rest).drop 4) = rest := rfl
  simp [parseOpt, ht, hd]

/-- A value whose encoding does not begin with `n` parses back to
`some` of it. -/
theorem parseOpt_val {α : Type} (p : List Char → Option (α × List Char))
    (v : α) (enc : List Char) (rest : List Char) (c : Char) (t : List Char)
    (henc : enc = c :: t) (hcn : c ≠ 'n')
    (hp : p (enc ++ rest) = some (v, rest)) :
    parseOpt p (enc ++ rest) = some (some v, rest) := by
  have hne4 : ((enc ++ rest).take 4) ≠ ("null").data := by
    subst henc
    intro hcontra
    simp only [List.cons_append, List.take_succ_cons] at hcontra
    have : c = 'n' := by
      have := congrArg (fun l => l.head?) hcontra
      simpa using this
    exact hcn this
  simp [parseOpt, hne4, hp]

/-- The body of a non-empty array parses back to its elements,
provided each element parses back and consumes its encoding
exactly. -/
theorem parseElems_round {α : Type} (p : List Char → Option (α × List Char))
    (f : α → List Char) (hne : ∀ x, f x ≠ [])
    (hp : ∀ (x : α) (r : List Char),
      (r.head? = some ',' ∨ r.head? = some ']') → p (f x ++ r) = some (x, r)) :
    ∀ (xs : List α) (rest : List Char), xs ≠ [] →
      parseElems p (encListInner f xs ++ rest) = some (xs, rest) := by
  intro xs
  induction xs with
  | nil =>
    intro rest h
    exact absurd rfl h
  | cons x xs ih =>
    intro rest _
    have hpos : 0 < (f x).length := List.length_pos.mpr (hne x)
    cases xs with
    | nil =>
      have hinput : encListInner f [x] ++ rest = f x ++ (']' :: rest) := by
        simp [encListInner]
      rw [hinput]
      have hpx := hp x (']' :: rest) (Or.inr rfl)
      rw [parseElems.eq_def, hpx]
      have hlt : (']' :: rest).length < (f x ++ ']' :: rest).length := by
        simp [List.length_append]
        omega
      simp only [List.length_cons, List.length_append] at hlt
      simp [hlt]
    | cons y ys =>
      have hinput : encListInner f (x :: y :: ys) ++ rest
          = f x ++ (',' :: (encListInner f (y :: ys) ++ rest)) := by
        simp [encListInner]
      rw [hinput]
      have hpx := hp x (',' :: (encListInner f (y :: ys) ++ rest)) (Or.inl rfl)
      rw [parseElems.eq_def, hpx]
      have hrec := ih rest (by simp)
      have hlt : (',' :: (encListInner f (y :: ys) ++ rest)).length
          < (f x ++ (',' :: (encListInner f (y :: ys) ++ rest))).length := by
        simp [List.length_append]
        omega
      simp only [List.length_cons, List.length_append] at hlt
      simp [hlt, hrec]

/-- A JSON array parses back to its element list. -/
theorem parseArr_round {α : Type} (p : List Char → Option (α × List Char))
    (f : α → List Char) (hne : ∀ x, f x ≠ [])
    (hhead : ∀ x, (f x).head? ≠ some ']')
    (hp : ∀ (x : α) (r : List Char),
      (r.head? = some ',' ∨ r.head? = some ']') → p (f x ++ r) = some (x, r)) :
    ∀ (xs : List α) (rest : List Char),
      parseArr p (encList f xs ++ rest) = some (xs, rest) := by
  intro xs rest
  cases xs with
  | nil =>
    have hshape : encList f ([] : List α) ++ rest = '[' :: ']' :: rest := by
      simp [encList, encListInner]
    rw [hshape]
    simp [parseArr]
  | cons x t =>
    have hshape : encList f (x :: t) ++ rest
        = '[' :: (encListInner f (x :: t) ++ rest) := by
      simp [encList]
    rw [hshape]
    have hhd : (encListInner f (x :: t) ++ rest).head? ≠ some ']' := by
      cases hfx : f x with
      | nil => exact absurd hfx (hne x)
      | cons c cs =>
        have hcne : c ≠ ']' := by
          have hx := hhead x
          rw [hfx] at hx
          simpa using hx
        cases t with
        | nil =>
          simp [encListInner, hfx]
          exact hcne
        | cons y ys =>
          simp [encListInner, hfx]
          exact hcne
    simp only [parseArr, if_neg hhd]
    exact parseElems_round p f hne hp (x :: t) rest (by simp)

/-- `parseOpt` through a head-character check: any encoding that
starts with a character other than `n` parses as `some`. -/
theorem parseOpt_val2 {α : Type} (p : List Char → Option (α × List Char))
    (v : α) (enc rest : List Char) (c : Char)
    (hhd : enc.head? = some c) (hcn : c ≠ 'n')
    (hp : p (enc ++ rest) = some (v, rest)) :
    parseOpt p (enc ++ rest) = some (some v, rest) := by
  cases henc : enc with
  | nil =>
    rw [henc] at hhd
    simp at hhd
  | cons d t =>
    rw [henc] at hhd
    have hdc : d = c := by simpa using hhd
    subst hdc
    rw [henc] at hp
    exact parseOpt_val p v (d :: t) rest d t rfl hcn hp

/-- Optional strings round trip. -/
theorem parseOptString_round (o : Option String) (rest : List Char) :
    parseOpt parseString (encOpt encString o ++ rest) = some (o, rest) := by
  cases o with
  | none => exact parseOpt_null parseString rest
  | some s =>
    simp only [encOpt]
    exact parseOpt_val2 parseString s (encString s) rest '\"' rfl (by decide)
      (parseString_round s rest)

/-- The decimal rendering starts with a digit. -/
theorem natStr_head_digit (n : Nat) :
    ∃ c t, natStr n = c :: t ∧ c.isDigit = true := by
  cases hns : natStr n with
  | nil => exact absurd hns (natStr_ne_nil n)
  | cons c t =>
    refine ⟨c, t, rfl, ?_⟩
    refine natStr_digits n c ?_
    rw [hns]
    exact List.mem_cons_self c t

/-- A separator (`,` or `]`) is not a digit. -/
theorem sepHead_not_digit (r : List Char)
    (hr : r.head? = some ',' ∨ r.head? = some ']') :
    ∀ c, r.head? = some c → c.isDigit = false := by
  intro c hc
  rcases hr with h | h
  · rw [hc] at h
    have hcv : c = ',' := Option.some.inj h
    subst hcv
    decide
  · rw [hc] at h
    have hcv : c = ']' := Option.some.inj h
    subst hcv
    decide

/-- Optional numbers round trip when no digit follows. -/
theorem parseOptNat_round (o : Option Nat) (rest : List Char)
    (hrest : ∀ c, rest.head? = some c → c.isDigit = false) :
    parseOpt parseNat (encOpt natStr o ++ rest) = some (o, rest) := by
  cases o with
  | none => exact parseOpt_null parseNat rest
  | some n =>
    obtain ⟨c, t, hns, hcd⟩ := natStr_head_digit n
    have hcn : c ≠ 'n' := by
      intro h
      rw [h] at hcd
      exact absurd hcd (by decide)
    simp only [encOpt]
    exact parseOpt_val parseNat n (natStr n) rest c t hns hcn
      (parseNat_round n rest hrest)

/-- One `date-parts` row round trips. -/
theorem parseRow_round (row : List (Option Nat)) (rest : List Char) :
    parseArr (parseOpt parseNat) (encRow row ++ rest) = some (row, rest) := by
  unfold encRow
  refine parseArr_round (parseOpt parseNat) (encOpt natStr) ?_ ?_ ?_ row rest
  · intro x
    cases x with
    | none => decide
    | some n => simpa [encOpt] using natStr_ne_nil n
  · intro x
    cases x with
    | none => decide
    | some n =>
      obtain ⟨c, t, hns, hcd⟩ := natStr_head_digit n
      simp only [encOpt, hns, List.head?_cons, ne_eq, Option.some.injEq]
      intro h
      rw [h] at hcd
      exact absurd hcd (by decide)
  · intro x r hr
    exact parseOptNat_round x r (sepHead_not_digit r hr)

/-- The `date-parts` array of rows round trips. -/
theorem parseRows_round (dp : List (List (Option Nat))) (rest : List Char) :
    parseArr (parseArr (parseOpt parseNat)) (encList encRow dp ++ rest)
      = some (dp, rest) := by
  refine parseArr_round (parseArr (parseOpt parseNat)) encRow ?_ ?_ ?_ dp rest
  · intro row
    simp [encRow, encList]
  · intro row
    simp [encRow, encList]
  · intro row r _
    exact parseRow_round row r

/-- A list with a known head is not empty. -/
theorem head?_some_ne_nil {l : List Char} {c : Char} (h : l.head? = some c) :
    l ≠ [] := by
  intro he
  rw [he] at h
  simp at h

/-- The title array of strings round trips. -/
theorem parseTitles_round (ts : List String) (rest : List Char) :
    parseArr parseString (encList encString ts ++ rest) = some (ts, rest) := by
  refine parseArr_round parseString encString ?_ ?_ ?_ ts rest
  · intro s
    exact head?_some_ne_nil (rfl : (encString s).head? = some '\"')
  · intro s
    have h1 : (encString s).head? = some '\"' := rfl
    rw [h1]
    decide
  · intro s r _
    exact parseString_round s r

/-- The `issued` object round trips. -/
theorem parseIssued_round (inner : Option (List (List (Option Nat))))
    (rest : List Char) :
    parseIssued (encIssued inner ++ rest) = some (inner, rest) := by
  have hshape : encIssued inner ++ rest
      = ("\x7b\"date-parts\":").data
          ++ (encOpt (encList encRow) inner ++ ('\x7d' :: rest)) := by
    simp [encIssued]
  rw [hshape]
  unfold parseIssued
  rw [expectLit_append]
  have hopt : parseOpt (parseArr (parseArr (parseOpt parseNat)))
      (encOpt (encList encRow) inner ++ ('\x7d' :: rest))
        = some (inner, '\x7d' :: rest) := by
    cases inner with
    | none => exact parseOpt_null _ _
    | some dp =>
      simp only [encOpt]
      exact parseOpt_val2 _ dp (encList encRow dp) ('\x7d' :: rest) '[' rfl
        (by decide) (parseRows_round dp ('\x7d' :: rest))
  have hbrace : expectLit ['\x7d'] ('\x7d' :: rest) = some rest :=
    expectLit_append ['\x7d'] rest
  simp [hopt, hbrace]

/-- One author object round trips. -/
theorem parseAuthor_round (a : CRAuthor) (rest : List Char) :
    parseAuthor (encAuthor a ++ rest) = some (a, rest) := by
  have hshape : encAuthor a ++ rest
      = ("\x7b\"family\":").data
          ++ (encOpt encString a.family
            ++ ((",\"given\":").data
              ++ (encOpt encString a.given ++ ('\x7d' :: rest)))) := by
    simp [encAuthor]
  rw [hshape]
  unfold parseAuthor
  rw [expectLit_append]
  have hbrace : expectLit ['\x7d'] ('\x7d' :: rest) = some rest :=
    expectLit_append ['\x7d'] rest
  simp only [Option.bind_eq_bind, Option.some_bind, parseOptString_round,
    expectLit_append, hbrace]

/-- The author array round trips. -/
theorem parseAuthors_round (as : List CRAuthor) (rest : List Char) :
    parseArr parseAuthor (encList encAuthor as ++ rest) = some (as, rest) := by
  refine parseArr_round parseAuthor encAuthor ?_ ?_ ?_ as rest
  · intro a
    exact head?_some_ne_nil (rfl : (encAuthor a).head? = some '\x7b')
  · intro a
    have h1 : (encAuthor a).head? = some '\x7b' := rfl
    rw [h1]
    decide
  · intro a r _
    exact parseAuthor_round a r

/-- The optional author array round trips. -/
theorem parseOptAuthors_round (o : Option (List CRAuthor)) (rest : List Char) :
    parseOpt (parseArr parseAuthor) (encOpt (encList encAuthor) o ++ rest)
      = some (o, rest) := by
  cases o with
  | none => exact parseOpt_null _ _
  | some as =>
    simp only [encOpt]
    exact parseOpt_val2 _ as (encList encAuthor as) rest '[' rfl (by decide)
      (parseAuthors_round as rest)

/-- The optional title array round trips. -/
theorem parseOptTitles_round (o : Option (List String)) (rest : List Char) :
    parseOpt (parseArr parseString) (encOpt (encList encString) o ++ rest)
      = some (o, rest) := by
  cases o with
  | none => exact parseOpt_null _ _
  | some ts =>
    simp only [encOpt]
    exact parseOpt_val2 _ ts (encList encString ts) rest '[' rfl (by decide)
      (parseTitles_round ts rest)

/-- The optional `issued` object round trips. -/
theorem parseOptIssued_round (o : Option (Option (List (List (Option Nat)))))
    (rest : List Char) :
    parseOpt parseIssued (encOpt encIssued o ++ rest) = some (o, rest) := by
  cases o with
  | none => exact parseOpt_null _ _
  | some inner =>
    simp only [encOpt]
    exact parseOpt_val2 _ inner (encIssued inner) rest '\x7b' rfl (by decide)
      (parseIssued_round inner rest)

/-- One raw record round trips. -/
theorem parseMessage_round (m : CrossrefMessage) (rest : List Char) :
    parseMessage (encMessage m ++ rest) = some (m, rest) := by
  have hshape : encMessage m ++ rest
      = ("\x7b\"author\":").data
          ++ (encOpt (encList encAuthor) m.author
            ++ ((",\"title\":").data
              ++ (encOpt (encList encString) m.title
                ++ ((",\"issued\":").data
                  ++ (encOpt encIssued m.issued
                    ++ ((",\"DOI\":").data
                      ++ (encOpt encString m.DOI ++ ('\x7d' :: rest)))))))) := by
    simp [encMessage]
  rw [hshape]
  unfold parseMessage
  rw [expectLit_append]
  have hbrace : ∀ R : List Char, expectLit ['\x7d'] ('\x7d' :: R) = some R :=
    fun R => expectLit_append ['\x7d'] R
  simp only [Option.bind_eq_bind, Option.some_bind, parseOptAuthors_round,
    parseOptTitles_round, parseOptIssued_round, parseOptString_round,
    expectLit_append, hbrace]

/-- The full dump of raw records round trips. -/
theorem parseMessages_round (msgs : List CrossrefMessage) (rest : List Char) :
    parseArr parseMessage (dumpsMessages msgs ++ rest) = some (msgs, rest) := by
  unfold dumpsMessages
  refine parseArr_round parseMessage encMessage ?_ ?_ ?_ msgs rest
  · intro m
    exact head?_some_ne_nil (rfl : (encMessage m).head? = some '\x7b')
  · intro m
    have h1 : (encMessage m).head? = some '\x7b' := rfl
    rw [h1]
    decide
  · intro m r _
    exact parseMessage_round m r

/-- Parsing the rendered dump recovers the records and consumes the
whole string. -/
theorem dumps_parse_round (msgs : List CrossrefMessage) :
    parseMessagesTop (String.mk (dumpsMessages msgs)) = some msgs := by
  unfold parseMessagesTop
  have hdata : (String.mk (dumpsMessages msgs)).data = dumpsMessages msgs := rfl
  have h : parseArr parseMessage (dumpsMessages msgs) = some (msgs, []) := by
    have h2 := parseMessages_round msgs []
    simpa using h2
  rw [hdata, h]

/-- C8: for every identifier list and every style other than `bibtex`
(case-insensitively), `build_citations` returns a string that parses
back to exactly the raw records fetched from the resolver, in order,
with no bibliographic transformation. -/
theorem build_citations_json_roundtrip (lookup : String → CrossrefMessage)
    (identifiers : List String) (style : String)
    (h : String.mk (style.data.map pyLower) ≠ ("bibtex")) :
    Option.bind (build_citations lookup identifiers style) parseMessagesTop
      = some (identifiers.map (_crossref_lookup lookup)) := by
  unfold build_citations
  rw [if_neg h]
  simp only [Option.some_bind]
  exact dumps_parse_round _

/-- Witness for `build_citations_json_roundtrip` with style `json`. -/
theorem build_citations_json_roundtrip_witness :
    String.mk (("json").data.map pyLower) ≠ ("bibtex") ∧
      Option.bind (build_citations lookupW8 [("x")] ("json")) parseMessagesTop
        = some ([("x")].map (_crossref_lookup lookupW8)) :=
  ⟨by decide, build_citations_json_roundtrip lookupW8 [("x")] ("json") (by decide)⟩

/-! ## Theorems: word-level reconstruction from the realized chunks -/

/-- Splitting a token built from a word part and a space part. -/
theorem parts_wordOf (ns sp : List Char) (h1 : ∀ c ∈ ns, isSpace c = false)
    (h2 : ∀ c ∈ sp, isSpace c = true) :
    wordOf (ns ++ sp) = ns ∧ spTail (ns ++ sp) = sp := by
  induction ns with
  | nil =>
    simp only [List.nil_append]
    constructor
    · unfold wordOf
      cases sp with
      | nil => rfl
      | cons c t =>
        have hc := h2 c (List.mem_cons_self c t)
        simp [List.takeWhile_cons, hc]
    · unfold spTail
      cases sp with
      | nil => rfl
      | cons c t =>
        have hc := h2 c (List.mem_cons_self c t)
        simp [List.dropWhile_cons, hc]
  | cons x ns ih =>
    have hx := h1 x (List.mem_cons_self x ns)
    have ihr := ih (fun c hc => h1 c (List.mem_cons_of_mem x hc))
    constructor
    · unfold wordOf at ihr ⊢
      simp [List.takeWhile_cons, hx, ihr.1]
    · unfold spTail at ihr ⊢
      simp [List.dropWhile_cons, hx, ihr.2]

/-- Every token is its word followed by its trailing whitespace. -/
theorem wordOf_append_spTail (t : List Char) : wordOf t ++ spTail t = t := by
  unfold wordOf spTail
  exact List.takeWhile_append_dropWhile (fun c => !isSpace c) t

/-- The word part contains no whitespace. -/
theorem wordOf_all_nonspace (t : List Char) :
    ∀ c ∈ wordOf t, isSpace c = false := by
  intro c hc
  have h := List.mem_takeWhile_imp hc
  simpa using h

/-- A well-formed token starts with a non-whitespace character. -/
theorem WFtok_head (t : List Char) (h : WFtok t) :
    ∃ c rest2, t = c :: rest2 ∧ isSpace c = false := by
  obtain ⟨hns, _⟩ := h
  cases hw : wordOf t with
  | nil => exact absurd hw hns
  | cons c w2 =>
    refine ⟨c, w2 ++ spTail t, ?_, ?_⟩
    · conv_lhs => rw [← wordOf_append_spTail t, hw]
      simp
    · have : c ∈ wordOf t := by
        rw [hw]
        exact List.mem_cons_self c w2
      exact wordOf_all_nonspace t c this

/-- Folding non-whitespace characters only extends the pending
token. -/
theorem foldr_tokStep_nonspace (ns : List Char)
    (h : ∀ c ∈ ns, isSpace c = false) :
    ∀ st : List Char × List (List Char), ns.foldr tokStep st = (ns ++ st.1, st.2) := by
  induction ns with
  | nil => intro st; rfl
  | cons c ns ih =>
    intro st
    have hc := h c (List.mem_cons_self c ns)
    rw [List.foldr_cons, ih (fun x hx => h x (List.mem_cons_of_mem c hx))]
    simp [tokStep, hc]

/-- Folding whitespace onto a whitespace-only pending token only
extends it. -/
theorem foldr_tokStep_allspace_from (l : List Char)
    (hl : ∀ c ∈ l, isSpace c = true) :
    ∀ (cur : List Char) (toks : List (List Char)), (∀ c ∈ cur, isSpace c = true) →
      l.foldr tokStep (cur, toks) = (l ++ cur, toks) := by
  induction l with
  | nil =>
    intro cur toks _
    rfl
  | cons c l ih =>
    intro cur toks hcur
    have hc := hl c (List.mem_cons_self c l)
    rw [List.foldr_cons, ih (fun x hx => hl x (List.mem_cons_of_mem c hx)) cur toks hcur]
    cases hl2 : l ++ cur with
    | nil => simp [tokStep, hc, hl2]
    | cons t r =>
      have ht : isSpace t = true := by
        have hmem : t ∈ l ++ cur := by
          rw [hl2]
          exact List.mem_cons_self t r
        rcases List.mem_append.mp hmem with hml | hmc
        · exact hl t (List.mem_cons_of_mem c hml)
        · exact hcur t hmc
      simp [tokStep, hc, hl2, ht]

/-- Core of the retokenization argument: folding the tokenizer over
the concatenation of well-formed tokens (all but the last ending in
whitespace) leaves the first token pending and the others finished. -/
theorem foldr_flatten_tokens : ∀ (rest : List (List Char)) (w : List Char),
    WFtok w → (∀ t ∈ rest, WFtok t) →
    (∀ t ∈ (w :: rest).dropLast, endsSpace t) →
    ((w :: rest).flatten).foldr tokStep ([], []) = (w, rest) := by
  intro rest
  induction rest with
  | nil =>
    intro w hwf _ _
    obtain ⟨hns, hsp2⟩ := hwf
    have h1 : (spTail w).foldr tokStep ([], []) = (spTail w, []) := by
      simpa using foldr_tokStep_allspace_from (spTail w) hsp2 [] []
        (fun c hc => absurd hc (List.not_mem_nil c))
    calc ([w].flatten).foldr tokStep (([] : List Char), ([] : List (List Char)))
        = w.foldr tokStep ([], []) := by simp
      _ = ((wordOf w) ++ (spTail w)).foldr tokStep ([], []) := by
            rw [wordOf_append_spTail]
      _ = (wordOf w).foldr tokStep ((spTail w).foldr tokStep ([], [])) := by
            rw [List.foldr_append]
      _ = (wordOf w).foldr tokStep (spTail w, []) := by rw [h1]
      _ = (wordOf w ++ spTail w, []) :=
            foldr_tokStep_nonspace (wordOf w) (wordOf_all_nonspace w) (spTail w, [])
      _ = (w, []) := by rw [wordOf_append_spTail]
  | cons y rest ih =>
    intro w hwf hrest hsp
    have hwfy : WFtok y := hrest y (List.mem_cons_self y rest)
    have hrest2 : ∀ t ∈ rest, WFtok t := fun t ht => hrest t (List.mem_cons_of_mem y ht)
    have hdl : (w :: y :: rest).dropLast = w :: (y :: rest).dropLast := rfl
    have hspY : ∀ t ∈ (y :: rest).dropLast, endsSpace t := by
      intro t ht
      apply hsp
      rw [hdl]
      exact List.mem_cons_of_mem w ht
    have hIH := ih y hwfy hrest2 hspY
    have hEndsW : endsSpace w := by
      apply hsp
      rw [hdl]
      exact List.mem_cons_self _ _
    obtain ⟨hnsW, hspW⟩ := hwf
    have hspne : spTail w ≠ [] := by
      intro hnil
      obtain ⟨c, hlast, hcsp⟩ := hEndsW
      have hw2 : wordOf w = w := by
        have h3 := wordOf_append_spTail w
        rw [hnil, List.append_nil] at h3
        exact h3
      have hcmem : c ∈ w := List.mem_of_mem_getLast? hlast
      rw [← hw2] at hcmem
      have hcns := wordOf_all_nonspace w c hcmem
      rw [hcns] at hcsp
      cases hcsp
    obtain ⟨cy, ty, hy, hcy⟩ := WFtok_head y hwfy
    rcases List.eq_nil_or_concat (spTail w) with hnil | ⟨spInit, clast, hsplit⟩
    · exact absurd hnil hspne
    · rw [List.concat_eq_append] at hsplit
      have hclast : isSpace clast = true := by
        refine hspW clast ?_
        rw [hsplit]
        exact List.mem_append_right spInit (by simp)
      have hspInit : ∀ c ∈ spInit, isSpace c = true := by
        intro c hc
        refine hspW c ?_
        rw [hsplit]
        exact List.mem_append_left _ hc
      have hemit : [clast].foldr tokStep (y, rest) = ([clast], y :: rest) := by
        rw [hy]
        simp [tokStep, hclast, hcy]
      calc ((w :: y :: rest).flatten).foldr tokStep (([] : List Char), ([] : List (List Char)))
          = (w ++ (y :: rest).flatten).foldr tokStep ([], []) := by simp
        _ = w.foldr tokStep (((y :: rest).flatten).foldr tokStep ([], [])) := by
              rw [List.foldr_append]
        _ = w.foldr tokStep (y, rest) := by rw [hIH]
        _ = ((wordOf w) ++ (spInit ++ [clast])).foldr tokStep (y, rest) := by
              rw [← hsplit, wordOf_append_spTail]
        _ = (wordOf w).foldr tokStep
              (spInit.foldr tokStep ([clast].foldr tokStep (y, rest))) := by
              rw [List.foldr_append, List.foldr_append]
        _ = (wordOf w).foldr tokStep (spInit.foldr tokStep ([clast], y :: rest)) := by
              rw [hemit]
        _ = (wordOf w).foldr tokStep (spInit ++ [clast], y :: rest) := by
              rw [foldr_tokStep_allspace_from spInit hspInit [clast] (y :: rest)
                (by intro c hc; rw [List.mem_singleton.mp hc]; exact hclast)]
        _ = (wordOf w ++ (spInit ++ [clast]), y :: rest) :=
              foldr_tokStep_nonspace (wordOf w) (wordOf_all_nonspace w) _
        _ = (w, y :: rest) := by rw [← hsplit, wordOf_append_spTail]

/-- Retokenizing the concatenation of well-formed tokens (all but the
last ending in whitespace) recovers exactly those tokens. -/
theorem tokenize_flatten (ws : List (List Char)) (hne : ws ≠ [])
    (hwf : ∀ t ∈ ws, WFtok t) (hsp : ∀ t ∈ ws.dropLast, endsSpace t) :
    tokenize ws.flatten = ws := by
  cases ws with
  | nil => exact absurd rfl hne
  | cons w rest =>
    have hF := foldr_flatten_tokens rest w (hwf w (List.mem_cons_self w rest))
      (fun t ht => hwf t (List.mem_cons_of_mem w ht)) hsp
    unfold tokenize
    rw [hF]
    obtain ⟨c, t2, hw, hc⟩ := WFtok_head w (hwf w (List.mem_cons_self w rest))
    rw [hw]
    simp [List.dropWhile_cons, hc]

/-- Dropping leading whitespace from an all-whitespace list leaves
nothing. -/
theorem dropWhile_allspace (l : List Char) (h : ∀ c ∈ l, isSpace c = true) :
    l.dropWhile isSpace = [] := by
  induction l with
  | nil => rfl
  | cons c l ih =>
    have hc := h c (List.mem_cons_self c l)
    simp [List.dropWhile_cons, hc, ih (fun x hx => h x (List.mem_cons_of_mem c hx))]

/-- A list headed by a non-whitespace character survives the leading
strip. -/
theorem dropWhile_head_nonspace (l : List Char) (c : Char) (r : List Char)
    (hl : l = c :: r) (hc : isSpace c = false) :
    l.dropWhile isSpace = l := by
  subst hl
  simp [List.dropWhile_cons, hc]

/-- Prepending a character keeps the last element of a non-empty
list. -/
theorem endsSpace_cons (c : Char) (t : Char) (r : List Char)
    (h : endsSpace (t :: r)) : endsSpace (c :: t :: r) := by
  obtain ⟨d, hd, hds⟩ := h
  exact ⟨d, by rw [List.getLast?_cons_cons]; exact hd, hds⟩

/-- The tokenizer step preserves the accumulator invariant. -/
theorem tokStep_inv (c : Char) (st : List Char × List (List Char))
    (h : StInv st) : StInv (tokStep c st) := by
  obtain ⟨cur, toks⟩ := st
  obtain ⟨⟨ns, sp, hcur, hns, hsp⟩, hwf, hdl, hcons⟩ := h
  simp only at hcur
  by_cases hc : isSpace c = true
  · cases hcurshape : cur with
    | nil =>
      have hstep : tokStep c (([] : List Char), toks) = ([c], toks) := by
        simp [tokStep, hc]
      rw [hstep]
      refine ⟨⟨[], [c], rfl, by simp, ?_⟩, hwf, ?_, ?_⟩
      · intro x hx
        rw [List.mem_singleton.mp hx]
        exact hc
      · simpa using hdl
      · intro _
        exact ⟨by simp, ⟨c, rfl, hc⟩⟩
    | cons t r =>
      by_cases ht : isSpace t = true
      · have hstep : tokStep c (t :: r, toks) = (c :: t :: r, toks) := by
          simp [tokStep, hc, ht]
        rw [hstep]
        have hnsnil : ns = [] := by
          cases hnseq : ns with
          | nil => rfl
          | cons n ns2 =>
            have hn : isSpace n = false := hns n (by rw [hnseq]; exact List.mem_cons_self n ns2)
            have : t = n := by
              rw [hcurshape, hnseq] at hcur
              exact (List.cons.injEq _ _ _ _).mp hcur |>.1
            rw [this, hn] at ht
            cases ht
        have hcursp : ∀ x ∈ cur, isSpace x = true := by
          intro x hx
          rw [hcur, hnsnil, List.nil_append] at hx
          exact hsp x hx
        refine ⟨⟨[], c :: t :: r, rfl, by simp, ?_⟩, hwf, ?_, ?_⟩
        · intro x hx
          rcases List.mem_cons.mp hx with h1 | h2
          · rw [h1]; exact hc
          · refine hcursp x ?_
            rw [hcurshape]
            exact h2
        · simpa using hdl
        · intro hne
          refine ⟨by simp, ?_⟩
          refine endsSpace_cons c t r ?_
          have := (hcons hne).2
          rwa [hcurshape] at this
      · have hstep : tokStep c (t :: r, toks) = ([c], (t :: r) :: toks) := by
          simp [tokStep, hc, ht]
        rw [hstep]
        have hnsne : ns ≠ [] := by
          intro hnil
          have : t ∈ sp := by
            rw [hcur, hnil, List.nil_append] at hcurshape
            rw [hcurshape]
            exact List.mem_cons_self t r
          rw [hsp t this] at ht
          exact ht rfl
        have hcurWF : WFtok cur := by
          obtain ⟨hw, hs⟩ := parts_wordOf ns sp hns hsp
          rw [hcur]
          exact ⟨by rw [hw]; exact hnsne, by rw [hs]; exact hsp⟩
        refine ⟨⟨[], [c], rfl, by simp, ?_⟩, ?_, ?_, ?_⟩
        · intro x hx
          rw [List.mem_singleton.mp hx]
          exact hc
        · intro x hx
          rcases List.mem_cons.mp hx with h1 | h2
          · rw [h1, ← hcurshape]; exact hcurWF
          · exact hwf x h2
        · intro x hx
          cases htoks : toks with
          | nil =>
            rw [htoks] at hx
            simp at hx
          | cons a b =>
            rw [htoks] at hx
            have hxc : x ∈ (t :: r) :: (a :: b).dropLast := by
              simpa using hx
            rcases List.mem_cons.mp hxc with h1 | h2
            · rw [h1, ← hcurshape]
              exact (hcons (by rw [htoks]; simp)).2
            · refine hdl x ?_
              rw [htoks]
              exact h2
        · intro _
          exact ⟨by simp, ⟨c, rfl, hc⟩⟩
  · have hcf : isSpace c = false := by
      cases hcv : isSpace c with
      | false => rfl
      | true => exact absurd hcv hc
    have hstep : tokStep c (cur, toks) = (c :: cur, toks) := by
      simp [tokStep, hcf]
    rw [hstep]
    refine ⟨⟨c :: ns, sp, by rw [hcur]; rfl, ?_, hsp⟩, hwf, hdl, ?_⟩
    · intro x hx
      rcases List.mem_cons.mp hx with h1 | h2
      · rw [h1]; exact hcf
      · exact hns x h2
    · intro hne
      obtain ⟨hcne, hce⟩ := hcons hne
      refine ⟨by simp, ?_⟩
      cases hcurshape : cur with
      | nil => exact absurd hcurshape hcne
      | cons t r =>
        refine endsSpace_cons c t r ?_
        rwa [hcurshape] at hce

/-- Every token produced by the tokenizer is well formed, and every
token but the last ends in whitespace. -/
theorem tokenize_wf_props (l : List Char) :
    (∀ t ∈ tokenize l, WFtok t) ∧ ∀ t ∈ (tokenize l).dropLast, endsSpace t := by
  have hInv : StInv (l.foldr tokStep ([], [])) := by
    induction l with
    | nil =>
      exact ⟨⟨[], [], rfl, by simp, by simp⟩, by simp, by simp, by simp⟩
    | cons c l ih =>
      rw [List.foldr_cons]
      exact tokStep_inv c _ ih
  rcases hfold : l.foldr tokStep ([], []) with ⟨cur, toks⟩
  rw [hfold] at hInv
  obtain ⟨⟨ns, sp, hcur, hns, hsp⟩, hwf, hdl, hcons⟩ := hInv
  simp only at hcur hwf hdl hcons
  unfold tokenize
  rw [hfold]
  cases hnseq : ns with
  | nil =>
    have hcursp : ∀ x ∈ cur, isSpace x = true := by
      intro x hx
      rw [hcur, hnseq, List.nil_append] at hx
      exact hsp x hx
    have hdw : cur.dropWhile isSpace = [] := dropWhile_allspace cur hcursp
    simp only [hdw]
    exact ⟨hwf, hdl⟩
  | cons n ns2 =>
    have hn : isSpace n = false := hns n (by rw [hnseq]; exact List.mem_cons_self n ns2)
    have hcurshape : cur = n :: (ns2 ++ sp) := by
      rw [hcur, hnseq, List.cons_append]
    have hdw : cur.dropWhile isSpace = cur :=
      dropWhile_head_nonspace cur n (ns2 ++ sp) hcurshape hn
    have hdw2 : List.dropWhile isSpace (n :: (ns2 ++ sp)) = n :: (ns2 ++ sp) := by
      rw [← hcurshape]
      exact hdw
    simp only [hcurshape, hdw2]
    have hcurWF : WFtok (n :: (ns2 ++ sp)) := by
      rw [← hcurshape, hcur]
      obtain ⟨hw, hs⟩ := parts_wordOf ns sp hns hsp
      refine ⟨by rw [hw, hnseq]; simp, by rw [hs]; exact hsp⟩
    constructor
    · intro t ht
      rcases List.mem_cons.mp ht with h1 | h2
      · rw [h1]
        exact hcurWF
      · exact hwf t h2
    · intro t ht
      cases htoks : toks with
      | nil =>
        rw [htoks] at ht
        simp at ht
      | cons a b =>
        rw [htoks] at ht
        have htc : t ∈ (n :: (ns2 ++ sp)) :: (a :: b).dropLast := by
          simpa using ht
        rcases List.mem_cons.mp htc with h1 | h2
        · rw [h1, ← hcurshape]
          exact (hcons (by rw [htoks]; simp)).2
        · refine hdl t ?_
          rw [htoks]
          exact h2

/-- Every window the chunking loop emits is a `drop`/`take` slice of
the token list starting inside it. -/
theorem chunkAux_window_shape (toks : List (List Char)) (cs ov : Nat) :
    ∀ fuel i, ∀ w ∈ chunkAux toks cs ov fuel i,
      ∃ j, j < toks.length ∧ w = (toks.drop j).take cs := by
  intro fuel
  induction fuel with
  | zero =>
    intro i w hw
    simp [chunkAux] at hw
  | succ fuel ih =>
    intro i w hw
    by_cases hi : i < toks.length
    · simp only [chunkAux, if_pos hi] at hw
      rcases List.mem_cons.mp hw with h1 | h2
      · exact ⟨i, hi, h1⟩
      · exact ih _ w h2
    · simp [chunkAux, if_neg hi] at hw

/-- A window over a live index is non-empty, consists of well-formed
tokens, and all its tokens but the last end in whitespace. -/
theorem window_props (toks : List (List Char))
    (hwf : ∀ t ∈ toks, WFtok t) (hsp : ∀ t ∈ toks.dropLast, endsSpace t)
    (j cs : Nat) (hj : j < toks.length) (hcs : 0 < cs) :
    (toks.drop j).take cs ≠ [] ∧ (∀ t ∈ (toks.drop j).take cs, WFtok t) ∧
      ∀ t ∈ ((toks.drop j).take cs).dropLast, endsSpace t := by
  refine ⟨?_, ?_, ?_⟩
  · intro hnil
    have hlen := congrArg List.length hnil
    simp [List.length_take, List.length_drop] at hlen
    omega
  · intro t ht
    exact hwf t (List.mem_of_mem_drop (List.mem_of_mem_take ht))
  · intro t ht
    obtain ⟨k, hk, hkt⟩ := List.mem_iff_getElem.mp ht
    have hklen : k < ((toks.drop j).take cs).length - 1 := by
      have := hk
      rwa [List.length_dropLast] at this
    have hwin : k < ((toks.drop j).take cs).length := by omega
    have hstep1 : (((toks.drop j).take cs).dropLast)[k]
        = ((toks.drop j).take cs)[k] := List.getElem_dropLast _ k hk
    have hkcs : k < cs := by
      have := hwin
      simp [List.length_take] at this
      omega
    have hkdrop : k < (toks.drop j).length := by
      have := hwin
      simp [List.length_take] at this
      simp [List.length_drop]
      omega
    have hstep2 : ((toks.drop j).take cs)[k] = (toks.drop j)[k] := by
      simp [List.getElem_take]
    have hjk : j + k < toks.length := by
      simp [List.length_drop] at hkdrop
      omega
    have hstep3 : (toks.drop j)[k] = toks[j + k] := by
      simp [List.getElem_drop]
    have hlast : j + k < toks.length - 1 := by
      have h1 := hklen
      simp [List.length_take, List.length_drop] at h1
      omega
    have hmem : t ∈ toks.dropLast := by
      rw [← hkt, hstep1, hstep2, hstep3]
      refine List.mem_iff_getElem.mpr ⟨j + k, ?_, ?_⟩
      · rw [List.length_dropLast]
        exact hlast
      · exact (List.getElem_dropLast toks (j + k) (by rw [List.length_dropLast]; exact hlast)).symm ▸ rfl
    exact hsp t hmem

/-- Dropping leading whitespace past an all-whitespace block. -/
theorem dropWhile_allspace_append (A B : List Char)
    (h : ∀ c ∈ A, isSpace c = true) :
    (A ++ B).dropWhile isSpace = B.dropWhile isSpace := by
  induction A with
  | nil => rfl
  | cons c A ih =>
    have hc := h c (List.mem_cons_self c A)
    simp [List.dropWhile_cons, hc, ih (fun x hx => h x (List.mem_cons_of_mem c hx))]

/-- Joining a window of well-formed tokens and stripping it, as
`_chunk_text` does to render a chunk, then retokenizing, recovers the
window's tokens with only the final token's trailing whitespace
removed. -/
theorem tokenize_mkChunk (u : List (List Char)) (t : List Char)
    (hwf : ∀ x ∈ u ++ [t], WFtok x) (hsp : ∀ x ∈ u, endsSpace x) :
    tokenize (mkChunk (u ++ [t])) = u ++ [wordOf t] := by
  have hwft : WFtok t := hwf t (by simp)
  have hflat : (u ++ [t]).flatten = u.flatten ++ t := by simp
  have hstrip : stripChars (u.flatten ++ t) = u.flatten ++ wordOf t := by
    unfold stripChars
    have hlead : (u.flatten ++ t).dropWhile isSpace = u.flatten ++ t := by
      cases hu : u with
      | nil =>
        obtain ⟨c, r, hcr, hc⟩ := WFtok_head t hwft
        refine dropWhile_head_nonspace _ c r ?_ hc
        simpa using hcr
      | cons w us =>
        obtain ⟨c, r, hcr, hc⟩ := WFtok_head w (hwf w (by rw [hu]; simp))
        refine dropWhile_head_nonspace _ c (r ++ (us.flatten ++ t)) ?_ hc
        simp [hcr]
    rw [hlead]
    have hwrev : (u.flatten ++ t).reverse
        = (spTail t).reverse ++ ((wordOf t).reverse ++ u.flatten.reverse) := by
      conv_lhs => rw [← wordOf_append_spTail t]
      simp [List.reverse_append, List.append_assoc]
    rw [hwrev]
    have hsprev : ∀ c ∈ (spTail t).reverse, isSpace c = true := by
      intro c hc
      exact hwft.2 c (List.mem_reverse.mp hc)
    rw [dropWhile_allspace_append _ _ hsprev]
    have hdrop2 : ((wordOf t).reverse ++ u.flatten.reverse).dropWhile isSpace
        = (wordOf t).reverse ++ u.flatten.reverse := by
      obtain ⟨hne, _⟩ := hwft
      cases hwr : (wordOf t).reverse with
      | nil =>
        rw [List.reverse_eq_nil_iff] at hwr
        exact absurd hwr hne
      | cons c r =>
        have hcmem : c ∈ wordOf t := by
          have hcm : c ∈ (wordOf t).reverse := by
            rw [hwr]
            exact List.mem_cons_self c r
          exact List.mem_reverse.mp hcm
        refine dropWhile_head_nonspace _ c (r ++ u.flatten.reverse) ?_
          (wordOf_all_nonspace t c hcmem)
        simp
    rw [hdrop2]
    simp [List.reverse_append]
  have hflat2 : u.flatten ++ wordOf t = (u ++ [wordOf t]).flatten := by simp
  have hmk : mkChunk (u ++ [t]) = u.flatten ++ wordOf t := by
    unfold mkChunk
    rw [hflat, hstrip]
  rw [hmk, hflat2]
  refine tokenize_flatten (u ++ [wordOf t]) (by simp) ?_ ?_
  · intro x hx
    rcases List.mem_append.mp hx with h1 | h2
    · exact hwf x (List.mem_append_left _ h1)
    · rw [List.mem_singleton.mp h2]
      have hno := wordOf_all_nonspace t
      have hparts := parts_wordOf (wordOf t) [] hno (by simp)
      rw [List.append_nil] at hparts
      refine ⟨?_, ?_⟩
      · rw [hparts.1]
        exact hwft.1
      · rw [hparts.2]
        simp
  · intro x hx
    rw [List.dropLast_concat] at hx
    exact hsp x hx

/-- Word-level congruence of the overlap-dropping concatenation: two
chunk sequences with the same words yield the same word stream. -/
theorem map_wordOf_dropOverlaps (ov : Nat) :
    ∀ (ws vs : List (List (List Char))),
      ws.map (fun w => w.map wordOf) = vs.map (fun w => w.map wordOf) →
      (dropOverlaps ov ws).map wordOf = (dropOverlaps ov vs).map wordOf := by
  intro ws vs h
  cases ws with
  | nil =>
    cases vs with
    | nil => rfl
    | cons v vs2 => simp at h
  | cons w ws2 =>
    cases vs with
    | nil => simp at h
    | cons v vs2 =>
      simp only [List.map_cons, List.cons.injEq] at h
      obtain ⟨hhead, htail⟩ := h
      simp only [dropOverlaps, List.map_append]
      rw [hhead]
      congr 1
      rw [List.map_flatten, List.map_flatten]
      congr 1
      rw [List.map_map, List.map_map]
      have hcomp : ((List.map wordOf) ∘ (List.drop ov))
          = ((List.drop ov) ∘ (List.map wordOf)) := by
        funext r
        simp [List.map_drop]
      calc ws2.map ((List.map wordOf) ∘ (List.drop ov))
          = ws2.map ((List.drop ov) ∘ (List.map wordOf)) := by rw [hcomp]
        _ = (ws2.map (fun w => w.map wordOf)).map (List.drop ov) := by
              rw [List.map_map]
        _ = (vs2.map (fun w => w.map wordOf)).map (List.drop ov) := by rw [htail]
        _ = vs2.map ((List.drop ov) ∘ (List.map wordOf)) := by rw [List.map_map]
        _ = vs2.map ((List.map wordOf) ∘ (List.drop ov)) := by rw [hcomp]

/-- Word-level reconstruction from the realized chunk strings: the
chunks of `_chunk_text`, re-tokenized, concatenated with the overlap
duplication ignored, carry exactly the words of the original token
stream in order. -/
theorem chunk_text_words (text : List Char) (cs ov : Nat)
    (hcs : 0 < cs) (hov : ov < cs) :
    (dropOverlaps ov ((_chunk_text text cs ov).map tokenize)).map wordOf
      = (tokenize text).map wordOf := by
  obtain ⟨hwf, hsp⟩ := tokenize_wf_props text
  have hmaps : (_chunk_text text cs ov).map tokenize
      = (chunkWindows (tokenize text) cs ov).map (fun w => tokenize (mkChunk w)) := by
    unfold _chunk_text
    rw [List.map_map]
    rfl
  rw [hmaps]
  have hcong : ((chunkWindows (tokenize text) cs ov).map
        (fun w => tokenize (mkChunk w))).map (fun w => w.map wordOf)
      = (chunkWindows (tokenize text) cs ov).map (fun w => w.map wordOf) := by
    rw [List.map_map]
    refine List.map_congr_left ?_
    intro w hw
    obtain ⟨j, hj, hshape⟩ := chunkAux_window_shape (tokenize text) cs ov
      (tokenize text).length 0 w hw
    have hprops := window_props (tokenize text) hwf hsp j cs hj hcs
    rw [← hshape] at hprops
    obtain ⟨hne, hwfw, hspw⟩ := hprops
    rcases List.eq_nil_or_concat w with hnil | ⟨u, tl, hconcat⟩
    · exact absurd hnil hne
    · rw [List.concat_eq_append] at hconcat
      subst hconcat
      have hdl : (u ++ [tl]).dropLast = u := List.dropLast_concat
      have hspu : ∀ x ∈ u, endsSpace x := by
        intro x hx
        refine hspw x ?_
        rw [hdl]
        exact hx
      show (tokenize (mkChunk (u ++ [tl]))).map wordOf = (u ++ [tl]).map wordOf
      rw [tokenize_mkChunk u tl hwfw hspu]
      simp only [List.map_append, List.map_cons, List.map_nil]
      congr 2
      have hno := wordOf_all_nonspace tl
      have hparts := parts_wordOf (wordOf tl) [] hno (by simp)
      rw [List.append_nil] at hparts
      exact hparts.1
  have h1 := map_wordOf_dropOverlaps ov
    ((chunkWindows (tokenize text) cs ov).map (fun w => tokenize (mkChunk w)))
    (chunkWindows (tokenize text) cs ov) hcong
  rw [h1, dropOverlaps_chunkWindows (tokenize text) cs ov hov]

/-- C1: for every text, every `chunk_size > 0` and every overlap with
`0 <= overlap < chunk_size`, segmenting and then concatenating all
chunks' token streams with the overlap duplication ignored reproduces
the original token sequence in order.  First conjunct: exactly, at the
level of the token windows the loop slices (a chunk of `_chunk_text`
is the join-and-strip rendering `mkChunk` of its window).  Second
conjunct: at the level of the realized chunk strings -- re-tokenizing
the chunks `_chunk_text` actually returns and dropping the overlaps
reproduces the original token sequence word for word (the trimming
only removes trailing whitespace inside a chunk's final token). -/
theorem chunk_reconstruction (text : List Char) (cs ov : Nat)
    (h0 : 0 < cs) (h : ov < cs) :
    dropOverlaps ov (chunkWindows (tokenize text) cs ov) = tokenize text ∧
      (dropOverlaps ov ((_chunk_text text cs ov).map tokenize)).map wordOf
        = (tokenize text).map wordOf :=
  ⟨dropOverlaps_chunkWindows (tokenize text) cs ov h,
    chunk_text_words text cs ov h0 h⟩

/-- Witness for `chunk_reconstruction` at a concrete text and
parameters. -/
theorem chunk_reconstruction_witness :
    0 < 2 ∧ 1 < 2 ∧
      (dropOverlaps 1 (chunkWindows (tokenize (("alpha beta  gamma ").data)) 2 1)
          = tokenize (("alpha beta  gamma ").data) ∧
        (dropOverlaps 1 (((_chunk_text (("alpha beta  gamma ").data) 2 1)).map tokenize)).map wordOf
          = (tokenize (("alpha beta  gamma ").data)).map wordOf) :=
  ⟨by decide, by decide,
    chunk_reconstruction (("alpha beta  gamma ").data) 2 1 (by decide) (by decide)⟩
